import Mathlib

/-!
MacOS Classic platform layer of PhysicsFS (`platform/macclassic.c`).

A shallow embedding of the path resolver, the location codec, the directory
lister, the file-handle operations and the metadata accessor, together with
the properties proved about them.

Conventions of the embedding.

* A C string is the list of its bytes before the terminating NUL; a Pascal
  string (`Str255`) is the list of the bytes that follow its length byte, so
  the length byte is the length of the list.
* The File Manager, the Alias Manager, `malloc`/`free` and the error recorder
  of `physfs_internal.h` are not part of the source file.  They are collected
  in a `Toolbox σ`: every native call takes the state `σ` of the outside world
  and returns its outcome with the next state.  Theorems quantified over
  `Toolbox σ` therefore hold for every outcome of every native call.
* `Catalog` is a small executable File Manager used where a statement speaks
  about catalogs, entries and aliases rather than about call outcomes.
-/

namespace MacClassic

/-! ## Native types and constants (`MacTypes.h`, `MacErrors.h`, `Files.h`) -/

/-- Result code of a native call (`OSErr`, a signed 16-bit integer). -/
abbrev OSErr := Int

/-- No error. -/
def noErr : OSErr := 0
/-- No such volume. -/
def nsvErr : OSErr := -35
/-- I/O error. -/
def ioErr : OSErr := -36
/-- Bad file name. -/
def bdNamErr : OSErr := -37
/-- End of file. -/
def eofErr : OSErr := -39
/-- File not found. -/
def fnfErr : OSErr := -43
/-- Duplicate file name. -/
def dupFNErr : OSErr := -48
/-- Parameter error. -/
def paramErr : OSErr := -50
/-- Directory not found. -/
def dirNFErr : OSErr := -120

/-- Directory id of the root directory of a volume. -/
def fsRtDirID : Int := 2
/-- Directory id of the parent of the root directory of a volume. -/
def fsRtParID : Int := 1
/-- Bit of `ioFlAttrib` that is set for a directory. -/
def kioFlAttribDirMask : Nat := 0x10

/-- Permission `fsRdPerm` of `HOpenDF`. -/
def fsRdPerm : Int := 1
/-- Permission `fsRdWrPerm` of `HOpenDF`. -/
def fsRdWrPerm : Int := 3
/-- Positioning mode `fsFromStart` of `SetFPos`. -/
def fsFromStart : Int := 1
/-- Positioning mode `fsFromLEOF` of `SetFPos`. -/
def fsFromLEOF : Int := 2

/-- Native location of a catalog entry (`FSSpec`). -/
structure FSSpec where
  vRefNum : Int
  parID : Int
  name : List Char
deriving DecidableEq, Repr, Inhabited

/-- The fields of the catalog parameter block (`CInfoPBRec`) that the source
reads or writes.  `ioName` is the buffer `ioNamePtr` points to.  `ioDrDirID`
is also `hFileInfo.ioDirID`. -/
structure CInfoPBRec where
  ioName : List Char
  ioVRefNum : Int
  ioFDirIndex : Int
  ioFlAttrib : Nat
  ioDrDirID : Int
  ioDrParID : Int
  ioDrNmFls : Nat
  ioDrMdDat : Nat
  ioFlMdDat : Nat
deriving DecidableEq, Repr, Inhabited

/-- A parameter block after `memset(&infoPB, 0, sizeof (CInfoPBRec))` whose
name pointer has then been set to the buffer holding `name`. -/
def CInfoPBRec.zeroed (name : List Char) : CInfoPBRec :=
  { ioName := name, ioVRefNum := 0, ioFDirIndex := 0, ioFlAttrib := 0, ioDrDirID := 0,
    ioDrParID := 0, ioDrNmFls := 0, ioDrMdDat := 0, ioFlMdDat := 0 }

/-- Error codes handed to `__PHYSFS_setError` by the bail-out macros. -/
inductive PhysfsErr where
  | ERR_OS_ERROR
  | ERR_FILE_NOT_FOUND
  | ERR_OUT_OF_MEMORY
  | ERR_NOT_A_DIR
  | ERR_FILE_EXISTS
deriving DecidableEq, Repr

/-- The native calls the source file makes, as state-passing functions over an
arbitrary state `σ` of the outside world.

* `FSMakeFSSpec st vRefNum dirID name` returns the result code and the
  location written through the output pointer.
* `PBGetCatInfoSync st pb` returns the result code and the block after the call.
* `ResolveAliasFileWithMountFlags st spec` returns the result code and the
  location left in `spec` (the two flag outputs are never read by the source).
* `IsAliasFile st spec` returns the result code and the `aliasFileFlag` output.
* `HOpenDF st vRefNum dirID name perm` returns the result code and the file
  reference number.
* `FSRead st ref count` returns the result code and the byte count left in
  `count` (a signed 32-bit value).
* `malloc st size` returns the address of the block, or `none` for `NULL`.
* `setError st e` is `__PHYSFS_setError(e)`. -/
structure Toolbox (σ : Type) where
  FSMakeFSSpec : σ → Int → Int → List Char → OSErr × FSSpec × σ
  PBGetCatInfoSync : σ → CInfoPBRec → OSErr × CInfoPBRec × σ
  ResolveAliasFileWithMountFlags : σ → FSSpec → OSErr × FSSpec × σ
  IsAliasFile : σ → FSSpec → OSErr × Bool × σ
  HCreate : σ → Int → Int → List Char → OSErr × σ
  HDelete : σ → Int → Int → List Char → OSErr × σ
  HOpenDF : σ → Int → Int → List Char → Int → OSErr × Int × σ
  SetEOF : σ → Int → Int → OSErr × σ
  SetFPos : σ → Int → Int → Int → OSErr × σ
  FSClose : σ → Int → OSErr × σ
  FSRead : σ → Int → Int → OSErr × Int × σ
  GetVRefNum : σ → Int → OSErr × Int × σ
  PBHGetVInfoSync : σ → Int → OSErr × List Char × σ
  FlushVol : σ → List Char → Int → OSErr × σ
  malloc : σ → Nat → Option Nat × σ
  free : σ → Nat → σ
  setError : σ → PhysfsErr → σ

/-! ## Path resolver -/

/-- Splits a string at its first `':'`: the text before it and the text after
it, or `none` when `strchr(s, ':')` is `NULL`. -/
def breakColon : List Char → Option (List Char × List Char)
  | [] => none
  | c :: cs =>
    if c = ':' then some ([], cs)
    else match breakColon cs with
      | none => none
      | some (a, b) => some (c :: a, b)

/-- The components of a string separated by `':'` (never the empty list). -/
def splitColon : List Char → List (List Char)
  | [] => [[]]
  | c :: cs =>
    if c = ':' then [] :: splitColon cs
    else match splitColon cs with
      | [] => [[c]]
      | h :: t => (c :: h) :: t

/-- Source `fnameToFSSpecNoAlias`.  `spec` is the caller's location, returned
untouched when the name is too long.  The buffer `str255` receives the first
`len` bytes of the NUL-terminated `fname`; when a colon is needed the last of
them (the NUL) is overwritten with `':'`. -/
def fnameToFSSpecNoAlias {σ : Type} (tb : Toolbox σ) (fname : List Char) (spec : FSSpec)
    (st : σ) : OSErr × FSSpec × σ :=
  let needColon : Bool := !(fname.contains ':')
  let len : Nat := fname.length + (if needColon then 1 else 0)
  if len > 255 then (bdNamErr, spec, st)
  else
    let str255 := (fname ++ [Char.ofNat 0]).take len
    let str255 := if needColon then str255.set (len - 1) ':' else str255
    tb.FSMakeFSSpec st 0 0 str255

/-- The `do ... while (start != NULL)` loop of `fnameToFSSpec`.  The list holds
the components that remain after `start`: its head is the Pascal string made
at `start` (the text up to `ptr`, or to the end when `ptr` is `NULL`), its
tail is empty exactly when `ptr` is `NULL`.  `ioNamePtr` aliases `spec->name`,
so the name left in the block is written back to `spec`. -/
def aliasWalk {σ : Type} (tb : Toolbox σ) (fname : List Char) :
    List (List Char) → FSSpec → σ → OSErr × FSSpec × σ
  | [], spec, st => (noErr, spec, st)
  | comp :: rest, spec, st =>
    let infoPB : CInfoPBRec :=
      { CInfoPBRec.zeroed spec.name with
        ioVRefNum := spec.vRefNum, ioDrDirID := spec.parID, ioFDirIndex := 0 }
    match tb.PBGetCatInfoSync st infoPB with
    | (err, infoPB, st) =>
      let spec : FSSpec := { spec with name := infoPB.ioName }
      if err ≠ noErr then fnameToFSSpecNoAlias tb fname spec st
      else
        let spec : FSSpec :=
          if infoPB.ioFlAttrib &&& kioFlAttribDirMask ≠ 0 then
            { spec with parID := infoPB.ioDrDirID }
          else spec
        match tb.FSMakeFSSpec st spec.vRefNum spec.parID comp with
        | (err, spec, st) =>
          if err ≠ noErr then fnameToFSSpecNoAlias tb fname spec st
          else
            match tb.ResolveAliasFileWithMountFlags st spec with
            | (err, spec, st) =>
              if err ≠ noErr then fnameToFSSpecNoAlias tb fname spec st
              else aliasWalk tb fname rest spec st

/-- Source `fnameToFSSpec`. -/
def fnameToFSSpec {σ : Type} (tb : Toolbox σ) (fname : List Char) (spec : FSSpec)
    (st : σ) : OSErr × FSSpec × σ :=
  match fnameToFSSpecNoAlias tb fname spec st with
  | (err, spec, st) =>
    if err = dirNFErr then
      match breakColon fname with
      | none => (err, spec, tb.setError st .ERR_FILE_NOT_FOUND)
      | some (vol, afterFirst) =>
        match breakColon afterFirst with
        | none => (err, spec, tb.setError st .ERR_FILE_NOT_FOUND)
        | some (dir, afterSecond) =>
          match fnameToFSSpecNoAlias tb (vol ++ ':' :: dir) spec st with
          | (err, spec, st) =>
            if err ≠ noErr then (err, spec, tb.setError st .ERR_OS_ERROR)
            else aliasWalk tb fname (splitColon afterSecond) spec st
    else
      if err ≠ noErr then (err, spec, tb.setError st .ERR_OS_ERROR)
      else
        match tb.ResolveAliasFileWithMountFlags st spec with
        | (err, spec, st) =>
          if err ≠ noErr then (err, spec, tb.setError st .ERR_OS_ERROR)
          else (noErr, spec, st)

/-! ## Location codec -/

/-- The C string held by a buffer: its bytes up to the first NUL. -/
def cstr (bytes : List Char) : List Char :=
  bytes.takeWhile (fun c => c ≠ Char.ofNat 0)

/-- A heap block returned by `malloc` together with the C string stored in it. -/
structure HeapString where
  addr : Nat
  str : List Char
deriving DecidableEq, Repr

/-- The statement `if (retval != NULL) free(retval);`. -/
def freeIfSet {σ : Type} (tb : Toolbox σ) (retval : Option HeapString) (st : σ) : σ :=
  match retval with
  | some r => tb.free st r.addr
  | none => st

/-- The `do ... while (infoPB.dirInfo.ioDrDirID != fsRtDirID)` loop of
`convFSSpecToPath`.  The first argument bounds the number of iterations; the
result is `none` when the bound is reached before the loop ends.  The buffer
`str255` is `infoPB.ioName`; `retLength` is a `UInt32`. -/
def convFSSpecToPathLoop {σ : Type} (tb : Toolbox σ) :
    Nat → CInfoPBRec → Nat → Option HeapString → σ → Option (Option HeapString × σ)
  | 0, _, _, _, _ => none
  | fuel + 1, infoPB, retLength, retval, st =>
    let infoPB : CInfoPBRec := { infoPB with ioDrDirID := infoPB.ioDrParID }
    match tb.PBGetCatInfoSync st infoPB with
    | (err, infoPB, st) =>
      if err ≠ noErr then
        some (none, tb.setError (freeIfSet tb retval st) .ERR_OS_ERROR)
      else
        let infoPB : CInfoPBRec := { infoPB with ioFDirIndex := -1 }
        let retLength : Nat := (retLength + (infoPB.ioName.length + 1)) % 2 ^ 32
        match tb.malloc st retLength with
        | (none, st) => some (none, tb.setError (freeIfSet tb retval st) .ERR_OUT_OF_MEMORY)
        | (some ptr, st) =>
          let str : List Char :=
            match retval with
            | some r => cstr infoPB.ioName ++ ':' :: r.str
            | none => cstr infoPB.ioName
          let st := freeIfSet tb retval st
          if infoPB.ioDrDirID ≠ fsRtDirID then
            convFSSpecToPathLoop tb fuel infoPB retLength (some ⟨ptr, str⟩) st
          else some (some ⟨ptr, str⟩, st)

/-- Source `convFSSpecToPath`, with a bound on the iterations of its loop. -/
def convFSSpecToPath {σ : Type} (tb : Toolbox σ) (fuel : Nat) (spec : FSSpec)
    (includeFile : Bool) (st : σ) : Option (Option HeapString × σ) :=
  let infoPB : CInfoPBRec :=
    { CInfoPBRec.zeroed spec.name with
      ioVRefNum := spec.vRefNum, ioDrParID := spec.parID,
      ioFDirIndex := if includeFile then 0 else -1 }
  convFSSpecToPathLoop tb fuel infoPB 0 none st

/-! ## Path-format conversion -/

/-- The loop `for (src = dirName; *src; src++, dst++)` of
`__PHYSFS_platformCvtToDependent`; the second argument is the text written to
`retval` so far. -/
def cvtLoop : List Char → List Char → List Char
  | [], written => written
  | c :: src, written => cvtLoop src (written ++ [if c = '/' then ':' else c])

/-- Source `__PHYSFS_platformCvtToDependent`; `none` is a `NULL` argument. -/
def __PHYSFS_platformCvtToDependent {σ : Type} (tb : Toolbox σ)
    (prepend : Option (List Char)) (dirName : List Char) (append : Option (List Char))
    (st : σ) : Option HeapString × σ :=
  let len : Nat :=
    (match prepend with | some p => p.length | none => 0) +
    (match append with | some a => a.length | none => 0) +
    dirName.length + 1
  match tb.malloc st len with
  | (none, st) => (none, tb.setError st .ERR_OUT_OF_MEMORY)
  | (some retval, st) =>
    let written : List Char :=
      match prepend with
      | some p => p
      | none => []
    (some ⟨retval, cvtLoop dirName written⟩, st)

/-! ## Directory lister -/

/-- Conversion of a value to `UInt16`. -/
def toUInt16 (n : Nat) : Nat := n % 65536

/-- Conversion of a `UInt16` to the `short` field `ioFDirIndex`. -/
def toSInt16 (n : Nat) : Int :=
  if n % 65536 < 32768 then ((n % 65536 : Nat) : Int) else ((n % 65536 : Nat) : Int) - 65536

/-- Size of a `LinkedStringList` node (two 32-bit pointers). -/
def sizeofLinkedStringList : Nat := 8

/-- The loop `for (i = 1; i <= max; i++)` of `__PHYSFS_platformEnumerateFiles`,
entered with the current `i` and the list built so far.  The first argument
bounds the number of loop tests; the result is `none` when the bound is reached
before the loop ends.  `i` is a `UInt16`, so `i++` wraps. -/
def enumerateLoop {σ : Type} (tb : Toolbox σ) (omitSymLinks : Bool) (vRefNum dirID : Int)
    (max : Nat) : Nat → Nat → List (List Char) → σ → Option (List (List Char) × σ)
  | 0, _, _, _ => none
  | fuel + 1, i, retval, st =>
    if i ≤ max then
      let infoPB : CInfoPBRec :=
        { CInfoPBRec.zeroed [] with
          ioVRefNum := vRefNum, ioDrDirID := dirID, ioFDirIndex := toSInt16 i }
      match tb.PBGetCatInfoSync st infoPB with
      | (err, infoPB, st) =>
        if err ≠ noErr then
          enumerateLoop tb omitSymLinks vRefNum dirID max fuel (toUInt16 (i + 1)) retval st
        else
          match tb.FSMakeFSSpec st vRefNum dirID infoPB.ioName with
          | (err, aliasspec, st) =>
            if err ≠ noErr then
              enumerateLoop tb omitSymLinks vRefNum dirID max fuel (toUInt16 (i + 1)) retval st
            else
              match tb.IsAliasFile st aliasspec with
              | (err, aliasFlag, st) =>
                if err ≠ noErr then
                  enumerateLoop tb omitSymLinks vRefNum dirID max fuel (toUInt16 (i + 1))
                    retval st
                else if aliasFlag && omitSymLinks then
                  enumerateLoop tb omitSymLinks vRefNum dirID max fuel (toUInt16 (i + 1))
                    retval st
                else
                  match tb.malloc st sizeofLinkedStringList with
                  | (none, st) => some (retval, st)
                  | (some l, st) =>
                    match tb.malloc st (infoPB.ioName.length + 1) with
                    | (none, st) => some (retval, tb.free st l)
                    | (some _, st) =>
                      enumerateLoop tb omitSymLinks vRefNum dirID max fuel (toUInt16 (i + 1))
                        (retval ++ [cstr infoPB.ioName]) st
    else some (retval, st)

/-- Source `__PHYSFS_platformEnumerateFiles`, with a bound on the loop tests.
The linked list is the list of its strings (`NULL` is the empty list).  The
local `spec` is read only after `fnameToFSSpec` has written it. -/
def __PHYSFS_platformEnumerateFiles {σ : Type} (tb : Toolbox σ) (fuel : Nat)
    (dirname : List Char) (omitSymLinks : Bool) (st : σ) : Option (List (List Char) × σ) :=
  match fnameToFSSpec tb dirname default st with
  | (err, spec, st) =>
    if err ≠ noErr then some ([], tb.setError st .ERR_OS_ERROR)
    else
      let infoPB : CInfoPBRec :=
        { CInfoPBRec.zeroed spec.name with
          ioVRefNum := spec.vRefNum, ioDrDirID := spec.parID, ioFDirIndex := 0 }
      match tb.PBGetCatInfoSync st infoPB with
      | (err, infoPB, st) =>
        if err ≠ noErr then some ([], tb.setError st .ERR_OS_ERROR)
        else if infoPB.ioFlAttrib &&& kioFlAttribDirMask = 0 then
          some ([], tb.setError st .ERR_NOT_A_DIR)
        else
          enumerateLoop tb omitSymLinks spec.vRefNum infoPB.ioDrDirID
            (toUInt16 infoPB.ioDrNmFls) fuel 1 [] st

/-! ## File handles -/

/-- An open file handle: the heap block of `malloc(sizeof (SInt16))` and the
file reference number stored in it. -/
structure FileHandle where
  addr : Nat
  ref : Int
deriving DecidableEq, Repr

/-- The file type `BINA` given to `HCreate`. -/
def typeBINA : Nat := 0x42494E41

/-- The statement `if (created) HDelete(spec.vRefNum, spec.parID, spec.name);`. -/
def deleteIfCreated {σ : Type} (tb : Toolbox σ) (created : Bool) (spec : FSSpec) (st : σ) : σ :=
  if created then (tb.HDelete st spec.vRefNum spec.parID spec.name).2 else st

/-- The part of `macDoOpen` after the `if (err == fnfErr)` block. -/
def macDoOpenTail {σ : Type} (tb : Toolbox σ) (perm : Int) (created : Bool) (spec : FSSpec)
    (st : σ) : Option FileHandle × σ :=
  match tb.malloc st 2 with
  | (none, st) => (none, tb.setError (deleteIfCreated tb created spec st) .ERR_OUT_OF_MEMORY)
  | (some retval, st) =>
    match tb.HOpenDF st spec.vRefNum spec.parID spec.name perm with
    | (err, ref, st) =>
      if err ≠ noErr then
        (none, tb.setError (deleteIfCreated tb created spec (tb.free st retval)) .ERR_OS_ERROR)
      else (some ⟨retval, ref⟩, st)

/-- Source `macDoOpen`.  `HCreate` also receives the creator
`procInfo.processSignature` and the type `BINA`, which no result depends on. -/
def macDoOpen {σ : Type} (tb : Toolbox σ) (fname : List Char) (perm : Int)
    (createIfMissing : Bool) (st : σ) : Option FileHandle × σ :=
  match fnameToFSSpec tb fname default st with
  | (err, spec, st) =>
    if err ≠ noErr ∧ err ≠ fnfErr then (none, tb.setError st .ERR_OS_ERROR)
    else if err = fnfErr then
      if !createIfMissing then (none, tb.setError st .ERR_FILE_NOT_FOUND)
      else
        match tb.HCreate st spec.vRefNum spec.parID spec.name with
        | (err, st) =>
          if err ≠ noErr then (none, tb.setError st .ERR_OS_ERROR)
          else macDoOpenTail tb perm true spec st
    else macDoOpenTail tb perm false spec st

/-- Source `__PHYSFS_platformOpenWrite`. -/
def __PHYSFS_platformOpenWrite {σ : Type} (tb : Toolbox σ) (filename : List Char) (st : σ) :
    Option FileHandle × σ :=
  match macDoOpen tb filename fsRdWrPerm true st with
  | (none, st) => (none, st)
  | (some retval, st) =>
    match tb.SetEOF st retval.ref 0 with
    | (err, st) =>
      if err ≠ noErr then
        (none, tb.setError (tb.FSClose st retval.ref).2 .ERR_OS_ERROR)
      else
        match tb.SetFPos st retval.ref fsFromStart 0 with
        | (err, st) =>
          if err ≠ noErr then
            (none, tb.setError (tb.FSClose st retval.ref).2 .ERR_OS_ERROR)
          else (some retval, st)

/-- Conversion of a `PHYSFS_uint32` to the `SInt32` variable `br`. -/
def toSInt32 (n : Nat) : Int :=
  if n % 2 ^ 32 < 2 ^ 31 then ((n % 2 ^ 32 : Nat) : Int) else ((n % 2 ^ 32 : Nat) : Int) - 2 ^ 32

/-- The loop `for (i = 0; i < count; i++)` of `__PHYSFS_platformRead`.  The
first argument is `count - i`, the number of iterations still to run.  The
comparison `br != size` is made after the usual conversion of `br` to the
unsigned 32-bit type of `size`. -/
def readLoop {σ : Type} (tb : Toolbox σ) (ref : Int) (size count : Nat) :
    Nat → Nat → σ → Int × σ
  | 0, _, st => ((count : Int), st)
  | remaining + 1, i, st =>
    match tb.FSRead st ref (toSInt32 size) with
    | (err, br, st) =>
      if err ≠ noErr then ((i : Int), tb.setError st .ERR_OS_ERROR)
      else if br % 2 ^ 32 ≠ (size : Int) then ((i : Int), tb.setError st .ERR_OS_ERROR)
      else readLoop tb ref size count remaining (i + 1) st

/-- Source `__PHYSFS_platformRead`; `size` and `count` are `PHYSFS_uint32`
values, the result is a `PHYSFS_sint64`. -/
def __PHYSFS_platformRead {σ : Type} (tb : Toolbox σ) (handle : FileHandle)
    (size count : Nat) (st : σ) : Int × σ :=
  readLoop tb handle.ref size count count 0 st

/-- Source `__PHYSFS_platformClose`.  The result is the `int` returned; the
buffer `volName` is filled by `PBHGetVInfoSync`. -/
def __PHYSFS_platformClose {σ : Type} (tb : Toolbox σ) (handle : FileHandle) (st : σ) :
    Int × σ :=
  match tb.GetVRefNum st handle.ref with
  | (err, vRefNum, st) =>
    if err ≠ noErr then (0, tb.setError st .ERR_OS_ERROR)
    else
      match tb.PBHGetVInfoSync st vRefNum with
      | (err, volName, st) =>
        if err ≠ noErr then (0, tb.setError st .ERR_OS_ERROR)
        else
          match tb.FSClose st handle.ref with
          | (err, st) =>
            if err ≠ noErr then (0, tb.setError st .ERR_OS_ERROR)
            else (1, (tb.FlushVol (tb.free st handle.addr) volName vRefNum).2)

/-! ## Metadata accessor -/

/-- Source `__PHYSFS_platformGetLastModTime`.  `modDate` is a `UInt32`, and the
subtraction is made in that type before the conversion to `PHYSFS_sint64`. -/
def __PHYSFS_platformGetLastModTime {σ : Type} (tb : Toolbox σ) (fname : List Char)
    (st : σ) : Int × σ :=
  match fnameToFSSpec tb fname default st with
  | (err, spec, st) =>
    if err ≠ noErr then (-1, tb.setError st .ERR_OS_ERROR)
    else
      let infoPB : CInfoPBRec :=
        { CInfoPBRec.zeroed spec.name with
          ioVRefNum := spec.vRefNum, ioDrDirID := spec.parID, ioFDirIndex := 0 }
      match tb.PBGetCatInfoSync st infoPB with
      | (err, infoPB, st) =>
        if err ≠ noErr then (-1, tb.setError st .ERR_OS_ERROR)
        else
          let modDate : Nat :=
            (if infoPB.ioFlAttrib &&& kioFlAttribDirMask ≠ 0 then infoPB.ioDrMdDat
             else infoPB.ioFlMdDat) % 2 ^ 32
          let modDate : Nat := (modDate + 2 ^ 32 - 2082844800) % 2 ^ 32
          ((modDate : Int), st)

/-! ## Recording the native calls -/

/-- A native call together with the arguments it was given. -/
inductive Call where
  | FSMakeFSSpec (vRefNum dirID : Int) (name : List Char)
  | PBGetCatInfoSync (pb : CInfoPBRec)
  | ResolveAliasFileWithMountFlags (spec : FSSpec)
  | IsAliasFile (spec : FSSpec)
  | HCreate (vRefNum dirID : Int) (name : List Char)
  | HDelete (vRefNum dirID : Int) (name : List Char)
  | HOpenDF (vRefNum dirID : Int) (name : List Char) (perm : Int)
  | SetEOF (ref logEOF : Int)
  | SetFPos (ref mode offset : Int)
  | FSClose (ref : Int)
  | FSRead (ref count : Int)
  | GetVRefNum (ref : Int)
  | PBHGetVInfoSync (vRefNum : Int)
  | FlushVol (name : List Char) (vRefNum : Int)
  | malloc (size : Nat)
  | free (addr : Nat)
  | setError (e : PhysfsErr)
deriving DecidableEq, Repr

/-- The toolbox `tb` with a log: every native call behaves as in `tb` and is
appended, with its arguments, to the list kept beside the state. -/
def traced {σ : Type} (tb : Toolbox σ) : Toolbox (σ × List Call) where
  FSMakeFSSpec := fun s v d n =>
    match tb.FSMakeFSSpec s.1 v d n with
    | (err, spec, st) => (err, spec, (st, s.2 ++ [Call.FSMakeFSSpec v d n]))
  PBGetCatInfoSync := fun s pb =>
    match tb.PBGetCatInfoSync s.1 pb with
    | (err, pb1, st) => (err, pb1, (st, s.2 ++ [Call.PBGetCatInfoSync pb]))
  ResolveAliasFileWithMountFlags := fun s spec =>
    match tb.ResolveAliasFileWithMountFlags s.1 spec with
    | (err, spec1, st) => (err, spec1, (st, s.2 ++ [Call.ResolveAliasFileWithMountFlags spec]))
  IsAliasFile := fun s spec =>
    match tb.IsAliasFile s.1 spec with
    | (err, a, st) => (err, a, (st, s.2 ++ [Call.IsAliasFile spec]))
  HCreate := fun s v d n =>
    match tb.HCreate s.1 v d n with
    | (err, st) => (err, (st, s.2 ++ [Call.HCreate v d n]))
  HDelete := fun s v d n =>
    match tb.HDelete s.1 v d n with
    | (err, st) => (err, (st, s.2 ++ [Call.HDelete v d n]))
  HOpenDF := fun s v d n perm =>
    match tb.HOpenDF s.1 v d n perm with
    | (err, ref, st) => (err, ref, (st, s.2 ++ [Call.HOpenDF v d n perm]))
  SetEOF := fun s ref logEOF =>
    match tb.SetEOF s.1 ref logEOF with
    | (err, st) => (err, (st, s.2 ++ [Call.SetEOF ref logEOF]))
  SetFPos := fun s ref mode offset =>
    match tb.SetFPos s.1 ref mode offset with
    | (err, st) => (err, (st, s.2 ++ [Call.SetFPos ref mode offset]))
  FSClose := fun s ref =>
    match tb.FSClose s.1 ref with
    | (err, st) => (err, (st, s.2 ++ [Call.FSClose ref]))
  FSRead := fun s ref count =>
    match tb.FSRead s.1 ref count with
    | (err, br, st) => (err, br, (st, s.2 ++ [Call.FSRead ref count]))
  GetVRefNum := fun s ref =>
    match tb.GetVRefNum s.1 ref with
    | (err, v, st) => (err, v, (st, s.2 ++ [Call.GetVRefNum ref]))
  PBHGetVInfoSync := fun s v =>
    match tb.PBHGetVInfoSync s.1 v with
    | (err, n, st) => (err, n, (st, s.2 ++ [Call.PBHGetVInfoSync v]))
  FlushVol := fun s n v =>
    match tb.FlushVol s.1 n v with
    | (err, st) => (err, (st, s.2 ++ [Call.FlushVol n v]))
  malloc := fun s size =>
    match tb.malloc s.1 size with
    | (p, st) => (p, (st, s.2 ++ [Call.malloc size]))
  free := fun s addr => (tb.free s.1 addr, s.2 ++ [Call.free addr])
  setError := fun s e => (tb.setError s.1 e, s.2 ++ [Call.setError e])

/-! ## An executable File Manager

The catalog is the list of its entries.  The root directory of a volume is an
entry whose parent id is `fsRtParID`, whose own id is `fsRtDirID` and whose
name is the name of the volume.  Names are compared byte by byte.  Not
modelled: the default volume and directory (`vRefNum` 0 with a name that is
not a full pathname names no directory) and parent references (an empty
component names no entry). -/

/-- An entry of the catalog: the volume and directory that hold it, its name,
its own catalog node id, whether it is a directory, the location its alias
record points to when it is an alias file, and its modification date. -/
structure CatEntry where
  vRefNum : Int
  parID : Int
  name : List Char
  cnid : Int
  isDir : Bool
  aliasTarget : Option FSSpec
  mdDat : Nat
deriving DecidableEq, Repr

/-- The catalog: its entries, in catalog order. -/
abbrev Catalog := List CatEntry

/-- The entry named `name` in directory `dirID` of volume `vRefNum`. -/
def findChild (cat : Catalog) (vRefNum dirID : Int) (name : List Char) : Option CatEntry :=
  cat.find? (fun e => decide (e.vRefNum = vRefNum ∧ e.parID = dirID ∧ e.name = name))

/-- The directory whose own id is `dirID` on volume `vRefNum`. -/
def findDir (cat : Catalog) (vRefNum dirID : Int) : Option CatEntry :=
  cat.find? (fun e => decide (e.vRefNum = vRefNum ∧ e.isDir = true ∧ e.cnid = dirID))

/-- The root directory of the volume named `name`. -/
def findVolume (cat : Catalog) (name : List Char) : Option CatEntry :=
  cat.find? (fun e => decide (e.parID = fsRtParID ∧ e.name = name))

/-- The entries of directory `dirID` of volume `vRefNum`, in catalog order. -/
def childrenOf (cat : Catalog) (vRefNum dirID : Int) : List CatEntry :=
  cat.filter (fun e => decide (e.vRefNum = vRefNum ∧ e.parID = dirID))

/-- The location of an entry. -/
def CatEntry.spec (e : CatEntry) : FSSpec := ⟨e.vRefNum, e.parID, e.name⟩

/-- Walks down from directory `dirID` along the components of a pathname and
reports the location of the last one: `noErr` when it exists, `fnfErr` when
only its directory does, `dirNFErr` when an earlier component is not a
directory of the catalog. -/
def descend (cat : Catalog) (vRefNum : Int) : Int → List (List Char) → OSErr × FSSpec
  | dirID, [] => (dirNFErr, ⟨vRefNum, dirID, []⟩)
  | dirID, [c] =>
    match findChild cat vRefNum dirID c with
    | some _ => (noErr, ⟨vRefNum, dirID, c⟩)
    | none => (fnfErr, ⟨vRefNum, dirID, c⟩)
  | dirID, c :: c2 :: cs =>
    match findChild cat vRefNum dirID c with
    | some e =>
      if e.isDir then descend cat vRefNum e.cnid (c2 :: cs)
      else (dirNFErr, ⟨vRefNum, dirID, c⟩)
    | none => (dirNFErr, ⟨vRefNum, dirID, c⟩)

/-- Removes one trailing empty component (a pathname ending in a colon names
the directory before the colon). -/
def dropTrailingEmpty (comps : List (List Char)) : List (List Char) :=
  if comps.getLast? = some [] then comps.dropLast else comps

/-- Catalog behaviour of `FSMakeFSSpec`.  A name that contains a colon and does
not begin with one is a full pathname and the two ids are ignored; any other
name is looked up from directory `dirID` of volume `vRefNum`, the empty name
being that directory itself. -/
def catFSMakeFSSpec (cat : Catalog) (vRefNum dirID : Int) (name : List Char) : OSErr × FSSpec :=
  if name.contains ':' ∧ name.head? ≠ some ':' then
    match splitColon name with
    | [] => (bdNamErr, ⟨vRefNum, dirID, name⟩)
    | vol :: rest =>
      match findVolume cat vol with
      | none => (nsvErr, ⟨vRefNum, dirID, name⟩)
      | some r =>
        match dropTrailingEmpty rest with
        | [] => (noErr, r.spec)
        | c :: cs => descend cat r.vRefNum fsRtDirID (c :: cs)
  else
    match findDir cat vRefNum dirID with
    | none => (dirNFErr, ⟨vRefNum, dirID, name⟩)
    | some d =>
      match dropTrailingEmpty (splitColon (if name.head? = some ':' then name.tail else name)) with
      | [] => (noErr, d.spec)
      | [[]] => (noErr, d.spec)
      | c :: cs => descend cat vRefNum dirID (c :: cs)

/-- The block after a successful `PBGetCatInfoSync` about entry `e`. -/
def fillInfo (cat : Catalog) (pb : CInfoPBRec) (e : CatEntry) (name : List Char) : CInfoPBRec :=
  { pb with
    ioName := name
    ioFlAttrib := if e.isDir then kioFlAttribDirMask else 0
    ioDrDirID := e.cnid
    ioDrParID := e.parID
    ioDrNmFls := (childrenOf cat e.vRefNum e.cnid).length
    ioDrMdDat := e.mdDat
    ioFlMdDat := e.mdDat }

/-- Catalog behaviour of `PBGetCatInfoSync`: a positive index selects the
entry at that position of the directory and returns its name, index 0 selects
the entry named by the name buffer (the directory itself when the name is
empty), a negative index selects the directory itself and returns its name. -/
def catGetCatInfo (cat : Catalog) (pb : CInfoPBRec) : OSErr × CInfoPBRec :=
  if 0 < pb.ioFDirIndex then
    match (childrenOf cat pb.ioVRefNum pb.ioDrDirID).get? (pb.ioFDirIndex.toNat - 1) with
    | some e => (noErr, fillInfo cat pb e e.name)
    | none => (fnfErr, pb)
  else if pb.ioFDirIndex = 0 ∧ pb.ioName ≠ [] then
    match findChild cat pb.ioVRefNum pb.ioDrDirID pb.ioName with
    | some e => (noErr, fillInfo cat pb e pb.ioName)
    | none => (fnfErr, pb)
  else
    match findDir cat pb.ioVRefNum pb.ioDrDirID with
    | some e => (noErr, fillInfo cat pb e e.name)
    | none => (dirNFErr, pb)

/-- Follows alias records from `spec`, at most as many as the first argument. -/
def resolveChain (cat : Catalog) : Nat → FSSpec → OSErr × FSSpec
  | 0, spec => (fnfErr, spec)
  | n + 1, spec =>
    match findChild cat spec.vRefNum spec.parID spec.name with
    | none => (fnfErr, spec)
    | some e =>
      match e.aliasTarget with
      | none => (noErr, spec)
      | some t => resolveChain cat n t

/-- Catalog behaviour of `ResolveAliasFileWithMountFlags` with chains resolved:
a location that is not an alias file is left as it is. -/
def catResolveAlias (cat : Catalog) (spec : FSSpec) : OSErr × FSSpec :=
  resolveChain cat (cat.length + 1) spec

/-- Catalog behaviour of `IsAliasFile`. -/
def catIsAliasFile (cat : Catalog) (spec : FSSpec) : OSErr × Bool :=
  match findChild cat spec.vRefNum spec.parID spec.name with
  | none => (fnfErr, false)
  | some e => (noErr, e.aliasTarget.isSome)

/-- A catalog node id that no entry of the catalog has. -/
def freshID (cat : Catalog) : Int :=
  (cat.map (fun e => e.cnid)).foldl max 15 + 1

/-- Catalog behaviour of `HCreate`: a new empty file at the end of the catalog. -/
def catHCreate (cat : Catalog) (vRefNum dirID : Int) (name : List Char) : OSErr × Catalog :=
  match findDir cat vRefNum dirID with
  | none => (dirNFErr, cat)
  | some _ =>
    match findChild cat vRefNum dirID name with
    | some _ => (dupFNErr, cat)
    | none => (noErr, cat ++ [⟨vRefNum, dirID, name, freshID cat, false, none, 0⟩])

/-- Catalog behaviour of `HDelete`. -/
def catHDelete (cat : Catalog) (vRefNum dirID : Int) (name : List Char) : OSErr × Catalog :=
  match findChild cat vRefNum dirID name with
  | none => (fnfErr, cat)
  | some _ =>
    (noErr, cat.filter (fun e => !decide (e.vRefNum = vRefNum ∧ e.parID = dirID ∧ e.name = name)))

/-- Catalog behaviour of `HOpenDF`; the reference number of an open file is
taken to be its catalog node id. -/
def catHOpenDF (cat : Catalog) (vRefNum dirID : Int) (name : List Char) : OSErr × Int :=
  match findChild cat vRefNum dirID name with
  | none => (fnfErr, 0)
  | some e => if e.isDir then (fnfErr, 0) else (noErr, e.cnid)

/-- Result codes of the calls on an open file, which the catalog does not
determine. -/
structure Faults where
  SetEOF : OSErr
  SetFPos : OSErr
  FSClose : OSErr
deriving DecidableEq, Repr

/-- No call on an open file fails. -/
def noFaults : Faults := ⟨noErr, noErr, noErr⟩

/-- The File Manager over a catalog.  Queries leave the catalog as it is,
`HCreate` and `HDelete` change it, allocation always succeeds, and the calls
on an open file answer as `faults` says. -/
def fileManager (faults : Faults) : Toolbox Catalog where
  FSMakeFSSpec := fun cat v d n => ((catFSMakeFSSpec cat v d n).1, (catFSMakeFSSpec cat v d n).2, cat)
  PBGetCatInfoSync := fun cat pb => ((catGetCatInfo cat pb).1, (catGetCatInfo cat pb).2, cat)
  ResolveAliasFileWithMountFlags := fun cat spec =>
    ((catResolveAlias cat spec).1, (catResolveAlias cat spec).2, cat)
  IsAliasFile := fun cat spec => ((catIsAliasFile cat spec).1, (catIsAliasFile cat spec).2, cat)
  HCreate := fun cat v d n => catHCreate cat v d n
  HDelete := fun cat v d n => catHDelete cat v d n
  HOpenDF := fun cat v d n _ => ((catHOpenDF cat v d n).1, (catHOpenDF cat v d n).2, cat)
  SetEOF := fun cat _ _ => (faults.SetEOF, cat)
  SetFPos := fun cat _ _ _ => (faults.SetFPos, cat)
  FSClose := fun cat _ => (faults.FSClose, cat)
  FSRead := fun cat _ _ => (eofErr, 0, cat)
  GetVRefNum := fun cat ref =>
    match cat.find? (fun e => decide (e.cnid = ref)) with
    | some e => (noErr, e.vRefNum, cat)
    | none => (fnfErr, 0, cat)
  PBHGetVInfoSync := fun cat v =>
    match findDir cat v fsRtDirID with
    | some r => (noErr, r.name, cat)
    | none => (nsvErr, [], cat)
  FlushVol := fun cat _ _ => (noErr, cat)
  malloc := fun cat _ => (some 0, cat)
  free := fun cat _ => cat
  setError := fun cat _ => cat

/-- Joins components with `':'`. -/
def joinColon : List (List Char) → List Char
  | [] => []
  | [c] => c
  | c :: c2 :: cs => c ++ ':' :: joinColon (c2 :: cs)

/-- A well-formed catalog: every entry is the one found under its own key, every
directory is the one found under its own id, the entries held by `fsRtParID`
are exactly the root directories, each the one found under its volume name,
no entry has the id `fsRtParID`, and names are non-empty and contain neither
a colon nor a NUL. -/
def WellFormed (cat : Catalog) : Prop :=
  ∀ e ∈ cat,
    findChild cat e.vRefNum e.parID e.name = some e ∧
    (e.isDir = true → findDir cat e.vRefNum e.cnid = some e) ∧
    (e.parID = fsRtParID → e.isDir = true ∧ findVolume cat e.name = some e) ∧
    (e.parID = fsRtParID ↔ e.cnid = fsRtDirID) ∧
    e.cnid ≠ fsRtParID ∧
    e.name ≠ [] ∧ ':' ∉ e.name ∧ Char.ofNat 0 ∉ e.name

instance (cat : Catalog) : Decidable (WellFormed cat) := by
  unfold WellFormed
  infer_instance

/-- A consistent catalog: every entry is the one found under its own key, every
directory is the one found under its own id, the entries held by `fsRtParID`
are exactly the directories with id `fsRtDirID`, no entry has the id
`fsRtParID`, and names are non-empty and contain no colon.  (A well-formed
catalog is a consistent one in which, moreover, volume names are unique and
names contain no NUL.) -/
def Consistent (cat : Catalog) : Prop :=
  ∀ e ∈ cat,
    findChild cat e.vRefNum e.parID e.name = some e ∧
    (e.isDir = true → findDir cat e.vRefNum e.cnid = some e) ∧
    (e.parID = fsRtParID → e.isDir = true) ∧
    (e.parID = fsRtParID ↔ e.cnid = fsRtDirID) ∧
    e.cnid ≠ fsRtParID ∧
    e.name ≠ [] ∧ ':' ∉ e.name

instance (cat : Catalog) : Decidable (Consistent cat) := by
  unfold Consistent
  infer_instance

/-- Entry `e` is reached from the root directory `root` of its volume by the
components `comps`: each one names an entry of the directory named by the one
before. -/
inductive Reachable (cat : Catalog) (root : CatEntry) : CatEntry → List (List Char) → Prop where
  | root : root ∈ cat → root.parID = fsRtParID → Reachable cat root root []
  | child (p e : CatEntry) (comps : List (List Char)) :
      Reachable cat root p comps → p.isDir = true → e ∈ cat →
      e.vRefNum = p.vRefNum → e.parID = p.cnid →
      Reachable cat root e (comps ++ [e.name])

/-! ## Definitions used to state the properties of the alias walk -/

/-- The first failing step of the alias walk over the given components, begun
at location `spec` in state `st`: the location and the state the resolver
holds right after the first catalog fetch, component `FSMakeFSSpec` or alias
resolution that fails, or `none` when every step succeeds. -/
def firstWalkFailure {σ : Type} (tb : Toolbox σ) :
    List (List Char) → FSSpec → σ → Option (FSSpec × σ)
  | [], _, _ => none
  | comp :: rest, spec, st =>
    match tb.PBGetCatInfoSync st
        { CInfoPBRec.zeroed spec.name with
          ioVRefNum := spec.vRefNum, ioDrDirID := spec.parID, ioFDirIndex := 0 } with
    | (err, infoPB, st) =>
      if err ≠ noErr then some ({ spec with name := infoPB.ioName }, st)
      else
        match tb.FSMakeFSSpec st spec.vRefNum
            (if infoPB.ioFlAttrib &&& kioFlAttribDirMask ≠ 0 then infoPB.ioDrDirID
             else spec.parID) comp with
        | (err, spec, st) =>
          if err ≠ noErr then some (spec, st)
          else
            match tb.ResolveAliasFileWithMountFlags st spec with
            | (err, spec, st) =>
              if err ≠ noErr then some (spec, st)
              else firstWalkFailure tb rest spec st

/-! ## Definitions used to state the properties of the directory lister -/

/-- The three native calls made for one candidate entry of directory `dirID`:
the catalog fetch with index `index`, the `FSMakeFSSpec` of the fetched name
and `IsAliasFile`.  When all three succeed the result is the fetched name and
the alias flag, otherwise `none`. -/
def probeEntry {σ : Type} (tb : Toolbox σ) (vRefNum dirID : Int) (index : Int) (st : σ) :
    Option (List Char × Bool) × σ :=
  match tb.PBGetCatInfoSync st
      { CInfoPBRec.zeroed [] with
        ioVRefNum := vRefNum, ioDrDirID := dirID, ioFDirIndex := index } with
  | (err, infoPB, st) =>
    if err ≠ noErr then (none, st)
    else
      match tb.FSMakeFSSpec st vRefNum dirID infoPB.ioName with
      | (err, aliasspec, st) =>
        if err ≠ noErr then (none, st)
        else
          match tb.IsAliasFile st aliasspec with
          | (err, aliasFlag, st) =>
            if err ≠ noErr then (none, st)
            else (some (cstr infoPB.ioName, aliasFlag), st)

/-- The entries of a directory that can be listed, each with its alias flag:
the candidates are probed in the order of the given positions, position `i`
with the fetch index `toIndex i`. -/
def listedEntries {σ : Type} (tb : Toolbox σ) (vRefNum dirID : Int) (toIndex : Nat → Int) :
    List Nat → σ → List (List Char × Bool) × σ
  | [], st => ([], st)
  | i :: rest, st =>
    match probeEntry tb vRefNum dirID (toIndex i) st with
    | (r, st) =>
      match listedEntries tb vRefNum dirID toIndex rest st with
      | (es, st) => (r.toList ++ es, st)

/-- The outcomes (result code and byte count left in `br`) of `n` successive
native reads of `size` bytes, the first one made in state `st`. -/
def readOutcomes {σ : Type} (tb : Toolbox σ) (ref : Int) (size : Nat) :
    Nat → σ → List (OSErr × Int)
  | 0, _ => []
  | n + 1, st =>
    match tb.FSRead st ref (toSInt32 size) with
    | (err, br, st) => (err, br) :: readOutcomes tb ref size n st

/-- A native read that completed with exactly `size` bytes: no error, and the
byte count, read as an unsigned 32-bit value, is `size`. -/
def fullRead (size : Nat) (o : OSErr × Int) : Bool :=
  decide (o.1 = noErr ∧ o.2 % 2 ^ 32 = (size : Int))

/-- The number of full reads before the first read that is not full. -/
def fullReads (size : Nat) (outcomes : List (OSErr × Int)) : Nat :=
  (outcomes.takeWhile (fullRead size)).length

/-- Whether a recorded call is a native read. -/
def Call.isFSRead : Call → Bool
  | .FSRead _ _ => true
  | _ => false

/-- A toolbox whose calls all fail with `paramErr` and change nothing. -/
def inertToolbox (σ : Type) : Toolbox σ where
  FSMakeFSSpec := fun st _ _ _ => (paramErr, default, st)
  PBGetCatInfoSync := fun st pb => (paramErr, pb, st)
  ResolveAliasFileWithMountFlags := fun st spec => (paramErr, spec, st)
  IsAliasFile := fun st _ => (paramErr, false, st)
  HCreate := fun st _ _ _ => (paramErr, st)
  HDelete := fun st _ _ _ => (paramErr, st)
  HOpenDF := fun st _ _ _ _ => (paramErr, 0, st)
  SetEOF := fun st _ _ => (paramErr, st)
  SetFPos := fun st _ _ _ => (paramErr, st)
  FSClose := fun st _ => (paramErr, st)
  FSRead := fun st _ _ => (paramErr, 0, st)
  GetVRefNum := fun st _ => (paramErr, 0, st)
  PBHGetVInfoSync := fun st _ => (paramErr, [], st)
  FlushVol := fun st _ _ => (paramErr, st)
  malloc := fun st _ => (none, st)
  free := fun st _ => st
  setError := fun st _ => st

/-- A toolbox whose state is the list of the outcomes of the native reads still
to come: each `FSRead` answers with the head of the list. -/
def scriptedReader : Toolbox (List (OSErr × Int)) :=
  { inertToolbox (List (OSErr × Int)) with
    FSRead := fun st _ _ =>
      match st with
      | [] => (eofErr, 0, [])
      | o :: rest => (o.1, o.2, rest) }

/-! ## Definitions used to state the properties of closing and of termination -/

/-- Whether a recorded call releases the block at `addr`. -/
def Call.isFreeOf (addr : Nat) : Call → Bool
  | .free a => decide (a = addr)
  | _ => false

/-- A toolbox over one directory whose catalog block reports 65535 children:
every name resolves, the fetch with index 0 describes the directory, every
other fetch returns an entry named `f`, no entry is an alias and allocation
succeeds. -/
def crowdedToolbox : Toolbox Unit :=
  { inertToolbox Unit with
    FSMakeFSSpec := fun st v d n => (noErr, ⟨v, d, n⟩, st)
    ResolveAliasFileWithMountFlags := fun st spec => (noErr, spec, st)
    IsAliasFile := fun st _ => (noErr, false, st)
    malloc := fun st _ => (some 0, st)
    PBGetCatInfoSync := fun st pb =>
      if pb.ioFDirIndex = 0 then
        (noErr,
          { pb with
            ioFlAttrib := kioFlAttribDirMask, ioDrDirID := fsRtDirID, ioDrNmFls := 65535 },
          st)
      else (noErr, { pb with ioName := "f".toList }, st) }

/-! ## Example catalogs -/

/-- The root directory of the volume `Macintosh HD`. -/
def hdRoot : CatEntry := ⟨-1, 1, "Macintosh HD".toList, 2, true, none, 3000000000⟩
/-- The folder `Macintosh HD:Archive`. -/
def archiveDir : CatEntry := ⟨-1, 2, "Archive".toList, 16, true, none, 3000000000⟩
/-- The folder `Macintosh HD:Archive:2020`. -/
def yearDir : CatEntry := ⟨-1, 16, "2020".toList, 17, true, none, 3000000000⟩
/-- The file `Macintosh HD:Archive:2020:report.txt`. -/
def reportFile : CatEntry := ⟨-1, 17, "report.txt".toList, 18, false, none, 3000000000⟩
/-- The alias file `Macintosh HD:Docs`, pointing to the folder `Archive:2020`. -/
def docsAlias : CatEntry :=
  ⟨-1, 2, "Docs".toList, 19, false, some ⟨-1, 16, "2020".toList⟩, 3000000000⟩
/-- The folder `Macintosh HD:Work`. -/
def workDir : CatEntry := ⟨-1, 2, "Work".toList, 20, true, none, 3000000000⟩
/-- The alias file `Macintosh HD:Work:Latest`, pointing to the folder `Archive:2020`. -/
def latestAlias : CatEntry :=
  ⟨-1, 20, "Latest".toList, 21, false, some ⟨-1, 16, "2020".toList⟩, 3000000000⟩
/-- The alias file `Macintosh HD:Work:Shortcut`, pointing to `report.txt`. -/
def shortcutAlias : CatEntry :=
  ⟨-1, 20, "Shortcut".toList, 22, false, some ⟨-1, 17, "report.txt".toList⟩, 3000000000⟩

/-- One volume, `Macintosh HD`, holding the folder `Archive:2020` with the file
`report.txt`, the alias file `Docs` at the top of the volume and the alias file
`Work:Latest`, both pointing to the folder `Archive:2020`, and the alias file
`Work:Shortcut` pointing to `report.txt`. -/
def macintoshHD : Catalog :=
  [hdRoot, archiveDir, yearDir, reportFile, docsAlias, workDir, latestAlias, shortcutAlias]

/-- The catalog `macintoshHD` with one more file, `report.txt` at the top of the
volume, beside the alias file `Docs`. -/
def macintoshHDWithTopReport : Catalog :=
  macintoshHD ++ [⟨-1, 2, "report.txt".toList, 23, false, none, 3000000000⟩]

/-- A name of 31 bytes, the longest a catalog entry can have. -/
def longName : List Char := List.replicate 31 'd'

/-- The root directory of the volume `HD` of `deepHD`. -/
def deepRoot : CatEntry := ⟨-1, 1, "HD".toList, 2, true, none, 3000000000⟩

/-- The folder named `longName` with id `cnid` inside the folder `parID`. -/
def deepDir (parID cnid : Int) : CatEntry := ⟨-1, parID, longName, cnid, true, none, 3000000000⟩

/-- One volume, `HD`, holding eight nested folders with names of 31 bytes; the
full pathname of the innermost one has 258 bytes. -/
def deepHD : Catalog :=
  [deepRoot, deepDir 2 16, deepDir 16 17, deepDir 17 18, deepDir 18 19, deepDir 19 20,
   deepDir 20 21, deepDir 21 22, deepDir 22 23]

/-- The location of `Macintosh HD:Archive:2020:report.txt` in `macintoshHD`. -/
def reportSpec : FSSpec := ⟨-1, 17, "report.txt".toList⟩

/-- One volume, `HD`, holding the files `epoch.txt`, last modified at native
time 2082844800 (the first second of 1970), and `old.txt`, last modified at
native time 0 (the first second of 1904). -/
def datedHD : Catalog :=
  [ ⟨-1, 1, "HD".toList, 2, true, none, 2082844800⟩,
    ⟨-1, 2, "epoch.txt".toList, 16, false, none, 2082844800⟩,
    ⟨-1, 2, "old.txt".toList, 17, false, none, 0⟩ ]

/-- The root directory of the first of two volumes named `Untitled`. -/
def firstFloppy : CatEntry := ⟨-1, 1, "Untitled".toList, 2, true, none, 3000000000⟩
/-- The file `a.txt` of the first volume named `Untitled`. -/
def firstFloppyFile : CatEntry := ⟨-1, 2, "a.txt".toList, 16, false, none, 3000000000⟩
/-- The root directory of the second of two volumes named `Untitled`. -/
def secondFloppy : CatEntry := ⟨-2, 1, "Untitled".toList, 2, true, none, 3000000000⟩
/-- The file `b.txt` of the second volume named `Untitled`. -/
def secondFloppyFile : CatEntry := ⟨-2, 2, "b.txt".toList, 16, false, none, 3000000000⟩

/-- Two mounted volumes with the same name, `Untitled`, each holding one file. -/
def twoFloppies : Catalog := [firstFloppy, firstFloppyFile, secondFloppy, secondFloppyFile]

/-- The root directory of the volume `HD` of `nulHD`. -/
def nulRoot : CatEntry := ⟨-1, 1, "HD".toList, 2, true, none, 3000000000⟩
/-- A file whose name is the three bytes `a`, NUL, `b`. -/
def nulFile : CatEntry := ⟨-1, 2, ['a', Char.ofNat 0, 'b'], 16, false, none, 3000000000⟩

/-- One volume, `HD`, holding one file with a NUL in its name. -/
def nulHD : Catalog := [nulRoot, nulFile]

/-- Calls on an open file in which `SetEOF` fails with `ioErr`. -/
def truncateFails : Faults := ⟨ioErr, noErr, noErr⟩

/-- Calls on an open file in which `SetFPos` fails with `ioErr`. -/
def seekFails : Faults := ⟨noErr, ioErr, noErr⟩

/-! ## Properties of the path resolver -/

/-- C1 (evaluation at the failing input).  In the well-formed catalog
`macintoshHD` the entry `Docs`, the first directory after the volume name, is
an alias of the folder `Macintosh HD:Archive:2020`.  The path that names the
target directly resolves to the location of `report.txt`, but the path through
the alias, `Macintosh HD:Docs:report.txt`, does not resolve: the resolver
answers `dirNFErr`.  The first segment is looked up without alias resolution
and the next component is then looked up in the directory that holds the
alias. -/
theorem fnameToFSSpec_alias_at_first_directory :
    WellFormed macintoshHD ∧
    catResolveAlias macintoshHD ⟨-1, 2, "Docs".toList⟩ = (noErr, ⟨-1, 16, "2020".toList⟩) ∧
    fnameToFSSpec (fileManager noFaults) "Macintosh HD:Archive:2020:report.txt".toList default
      macintoshHD = (noErr, reportSpec, macintoshHD) ∧
    (fnameToFSSpec (fileManager noFaults) "Macintosh HD:Docs:report.txt".toList default
      macintoshHD).1 = dirNFErr := by
  refine ⟨by decide, by decide, by decide, by decide⟩

/-- When a file with the name of the next component lies beside the alias at
the first directory, the path through the alias resolves to that file instead
of the file in the target of the alias. -/
theorem fnameToFSSpec_alias_at_first_directory_sibling :
    WellFormed macintoshHDWithTopReport ∧
    fnameToFSSpec (fileManager noFaults) "Macintosh HD:Docs:report.txt".toList default
      macintoshHDWithTopReport =
        (noErr, ⟨-1, 2, "report.txt".toList⟩, macintoshHDWithTopReport) ∧
    fnameToFSSpec (fileManager noFaults) "Macintosh HD:Archive:2020:report.txt".toList default
      macintoshHDWithTopReport = (noErr, reportSpec, macintoshHDWithTopReport) := by
  refine ⟨by decide, by decide, by decide⟩

/-- An alias at a later interior directory is followed: in `macintoshHD` the
entry `Work:Latest` is an alias of the folder `Archive:2020`, and the path
through it resolves to the location the direct path resolves to. -/
theorem fnameToFSSpec_alias_at_later_directory :
    fnameToFSSpec (fileManager noFaults) "Macintosh HD:Work:Latest:report.txt".toList default
      macintoshHD = (noErr, reportSpec, macintoshHD) := by
  decide

/-- An alias at the final component is followed: in `macintoshHD` the entry
`Work:Shortcut` is an alias of `report.txt`. -/
theorem fnameToFSSpec_alias_at_final_component :
    fnameToFSSpec (fileManager noFaults) "Macintosh HD:Work:Shortcut".toList default
      macintoshHD = (noErr, reportSpec, macintoshHD) := by
  decide

theorem breakColon_some_count {s a b : List Char} (h : breakColon s = some (a, b)) :
    s.count ':' = b.count ':' + 1 := by
  induction s generalizing a b with
  | nil => simp [breakColon] at h
  | cons c cs ih =>
    unfold breakColon at h
    split at h
    · rename_i hc
      simp at h
      subst hc
      simp [h.2]
    · rename_i hc
      split at h
      · simp at h
      · rename_i a1 b1 heq
        simp at h
        obtain ⟨-, rfl⟩ := h
        rw [List.count_cons_of_ne (Ne.symm hc)]
        exact ih heq

theorem breakColon_none_of_count {s : List Char} (h : s.count ':' = 0) : breakColon s = none := by
  cases hb : breakColon s with
  | none => rfl
  | some p =>
    obtain ⟨a, b⟩ := p
    have := breakColon_some_count hb
    omega

/-- With fewer than two separators the resolver is the direct lookup followed,
on success, by the alias resolution of the location found. -/
theorem fnameToFSSpec_of_count_lt_two {σ : Type} (tb : Toolbox σ) (fname : List Char)
    (spec : FSSpec) (st : σ) (h : fname.count ':' < 2) :
    fnameToFSSpec tb fname spec st =
      (match fnameToFSSpecNoAlias tb fname spec st with
       | (err, spec, st) =>
         if err = dirNFErr then (err, spec, tb.setError st .ERR_FILE_NOT_FOUND)
         else if err ≠ noErr then (err, spec, tb.setError st .ERR_OS_ERROR)
         else
           match tb.ResolveAliasFileWithMountFlags st spec with
           | (err, spec, st) =>
             if err ≠ noErr then (err, spec, tb.setError st .ERR_OS_ERROR)
             else (noErr, spec, st)) := by
  unfold fnameToFSSpec
  rcases hn : fnameToFSSpecNoAlias tb fname spec st with ⟨err, spec1, st1⟩
  simp only
  split
  · cases hb : breakColon fname with
    | none => rfl
    | some p =>
      obtain ⟨vol, r1⟩ := p
      have h1 := breakColon_some_count hb
      have h2 : breakColon r1 = none := breakColon_none_of_count (by omega)
      simp only [h2]
  · rfl

theorem fnameToFSSpecNoAlias_traced_log {σ : Type} (tb : Toolbox σ) (fname : List Char)
    (spec : FSSpec) (st : σ) (log : List Call) :
    (fnameToFSSpecNoAlias (traced tb) fname spec (st, log)).2.2.2 = log ∨
    ∃ name, (fnameToFSSpecNoAlias (traced tb) fname spec (st, log)).2.2.2 =
      log ++ [Call.FSMakeFSSpec 0 0 name] := by
  by_cases hl : fname.length + (if (!fname.contains ':') = true then 1 else 0) > 255
  · left
    simp only [fnameToFSSpecNoAlias, if_pos hl]
  · right
    simp only [fnameToFSSpecNoAlias, if_neg hl, traced]
    exact ⟨_, rfl⟩

/-- C3.  For a path with fewer than two `':'` separators and every behaviour of
the native calls: when the direct lookup fails, the resolver returns the
result code of the direct lookup (also when it is `dirNFErr`); the direct
lookup makes at most one native call, the `FSMakeFSSpec` of the whole name;
and after the calls of the direct lookup the resolver makes no native call
other than the alias resolution of the location found and the recording of an
error: no catalog fetch, no `FSMakeFSSpec` of a component, no second lookup. -/
theorem fnameToFSSpec_fewer_than_two_separators {σ : Type} (tb : Toolbox σ) (fname : List Char)
    (spec : FSSpec) (st : σ) (h : fname.count ':' < 2) :
    ((fnameToFSSpecNoAlias tb fname spec st).1 ≠ noErr →
      (fnameToFSSpec tb fname spec st).1 = (fnameToFSSpecNoAlias tb fname spec st).1) ∧
    ((fnameToFSSpecNoAlias (traced tb) fname spec (st, [])).2.2.2 = [] ∨
      ∃ name, (fnameToFSSpecNoAlias (traced tb) fname spec (st, [])).2.2.2 =
        [Call.FSMakeFSSpec 0 0 name]) ∧
    ∃ tail : List Call,
      (fnameToFSSpec (traced tb) fname spec (st, [])).2.2.2 =
        (fnameToFSSpecNoAlias (traced tb) fname spec (st, [])).2.2.2 ++ tail ∧
      ∀ c ∈ tail, (∃ s, c = Call.ResolveAliasFileWithMountFlags s) ∨ ∃ e, c = Call.setError e := by
  refine ⟨?_, ?_, ?_⟩
  · intro hne
    rw [fnameToFSSpec_of_count_lt_two tb fname spec st h]
    rcases hn : fnameToFSSpecNoAlias tb fname spec st with ⟨err, spec1, st1⟩
    rw [hn] at hne
    simp only at hne ⊢
    split
    · rfl
    · rfl
  · simpa using fnameToFSSpecNoAlias_traced_log tb fname spec st []
  · rw [fnameToFSSpec_of_count_lt_two (traced tb) fname spec (st, []) h]
    rcases hn : fnameToFSSpecNoAlias (traced tb) fname spec (st, []) with ⟨err, spec1, st1, log1⟩
    simp only
    split
    · exact ⟨[Call.setError .ERR_FILE_NOT_FOUND], rfl, by simp⟩
    · split
      · exact ⟨[Call.setError .ERR_OS_ERROR], rfl, by simp⟩
      · rcases hr : tb.ResolveAliasFileWithMountFlags st1 spec1 with ⟨e2, spec2, st2⟩
        simp only [traced, hr]
        split
        · exact ⟨[Call.ResolveAliasFileWithMountFlags spec1, Call.setError .ERR_OS_ERROR],
            by simp, by simp⟩
        · exact ⟨[Call.ResolveAliasFileWithMountFlags spec1], by simp, by simp⟩

/-- Witness of C3: `Macintosh HD:Ghost` has one separator, its direct lookup
fails with `fnfErr`, and the resolver returns `fnfErr`. -/
theorem fnameToFSSpec_fewer_than_two_separators_witness :
    "Macintosh HD:Ghost".toList.count ':' < 2 ∧
    (fnameToFSSpec (fileManager noFaults) "Macintosh HD:Ghost".toList default macintoshHD).1 =
      fnfErr :=
  ⟨by decide,
   ((fnameToFSSpec_fewer_than_two_separators (fileManager noFaults) "Macintosh HD:Ghost".toList
      default macintoshHD (by decide)).1 (by decide)).trans (by decide)⟩

/-- When the direct lookup of the whole path answers `dirNFErr`, the path has
two separators and the lookup of its first segment fails, the resolver returns
the result code and the location of the first-segment lookup. -/
theorem fnameToFSSpec_first_segment_result {σ : Type} (tb : Toolbox σ) (fname : List Char)
    (spec : FSSpec) (st : σ) (vol afterFirst dir afterSecond : List Char)
    (spec1 : FSSpec) (st1 : σ)
    (hb1 : breakColon fname = some (vol, afterFirst))
    (hb2 : breakColon afterFirst = some (dir, afterSecond))
    (hd : fnameToFSSpecNoAlias tb fname spec st = (dirNFErr, spec1, st1))
    (hf : (fnameToFSSpecNoAlias tb (vol ++ ':' :: dir) spec1 st1).1 ≠ noErr) :
    (fnameToFSSpec tb fname spec st).1 = (fnameToFSSpecNoAlias tb (vol ++ ':' :: dir) spec1 st1).1 ∧
    (fnameToFSSpec tb fname spec st).2.1 =
      (fnameToFSSpecNoAlias tb (vol ++ ':' :: dir) spec1 st1).2.1 := by
  unfold fnameToFSSpec
  simp only [hd, hb1, hb2, if_true]
  rcases hs : fnameToFSSpecNoAlias tb (vol ++ ':' :: dir) spec1 st1 with ⟨err2, spec2, st2⟩
  rw [hs] at hf
  simp only at hf
  simp only [if_pos hf, and_self]

/-- C10 (evaluation at the failing input).  In `macintoshHD` there is no entry
`Missing`.  The direct lookup of `Macintosh HD:Missing:x` answers `dirNFErr`,
the lookup of its first segment `Macintosh HD:Missing` answers `fnfErr`, and
the resolver returns `fnfErr`, the error of the first-segment lookup, together
with the location of `Missing` at the top of the volume. -/
theorem fnameToFSSpec_first_segment_failure :
    (fnameToFSSpecNoAlias (fileManager noFaults) "Macintosh HD:Missing:x".toList default
      macintoshHD).1 = dirNFErr ∧
    (fnameToFSSpecNoAlias (fileManager noFaults) "Macintosh HD:Missing".toList default
      macintoshHD).1 = fnfErr ∧
    fnameToFSSpec (fileManager noFaults) "Macintosh HD:Missing:x".toList default macintoshHD =
      (fnfErr, ⟨-1, 2, "Missing".toList⟩, macintoshHD) := by
  refine ⟨by decide, by decide, by decide⟩

/-- A consequence of the first-segment result: opening `Macintosh HD:Missing:x`
for writing creates a file named `Missing` at the top of the volume. -/
theorem openWrite_creates_first_segment :
    findChild macintoshHD (-1) 2 "Missing".toList = none ∧
    (findChild (__PHYSFS_platformOpenWrite (fileManager noFaults)
      "Macintosh HD:Missing:x".toList macintoshHD).2 (-1) 2 "Missing".toList).isSome = true := by
  refine ⟨by decide, by decide⟩

/-! ## Properties of reading -/

theorem traced_FSRead {σ : Type} (tb : Toolbox σ) (s : σ × List Call) (ref count : Int) :
    (traced tb).FSRead s ref count =
      ((tb.FSRead s.1 ref count).1, (tb.FSRead s.1 ref count).2.1,
        ((tb.FSRead s.1 ref count).2.2, s.2 ++ [Call.FSRead ref count])) := rfl

theorem traced_setError {σ : Type} (tb : Toolbox σ) (s : σ × List Call) (e : PhysfsErr) :
    (traced tb).setError s e = (tb.setError s.1 e, s.2 ++ [Call.setError e]) := rfl

theorem fullReads_cons_of_not (size : Nat) (o : OSErr × Int) (l : List (OSErr × Int))
    (h : fullRead size o = false) : fullReads size (o :: l) = 0 := by
  simp [fullReads, List.takeWhile_cons, h]

theorem fullReads_cons_of_full (size : Nat) (o : OSErr × Int) (l : List (OSErr × Int))
    (h : fullRead size o = true) : fullReads size (o :: l) = fullReads size l + 1 := by
  simp [fullReads, List.takeWhile_cons, h]

theorem fullRead_of_err (size : Nat) (err : OSErr) (br : Int) (h : err ≠ noErr) :
    fullRead size (err, br) = false := by
  simp [fullRead, h]

theorem fullRead_of_count (size : Nat) (err : OSErr) (br : Int)
    (h : br % 2 ^ 32 ≠ (size : Int)) : fullRead size (err, br) = false := by
  unfold fullRead
  exact decide_eq_false (fun hc => h hc.2)

theorem fullRead_of_both (size : Nat) (err : OSErr) (br : Int) (he : err = noErr)
    (h : br % 2 ^ 32 = (size : Int)) : fullRead size (err, br) = true := by
  unfold fullRead
  exact decide_eq_true ⟨he, h⟩

theorem readLoop_result {σ : Type} (tb : Toolbox σ) (ref : Int) (size count : Nat) :
    ∀ (n i : Nat) (st : σ), i + n = count →
      (readLoop tb ref size count n i st).1 =
        ((i + fullReads size (readOutcomes tb ref size n st) : Nat) : Int) := by
  intro n
  induction n with
  | zero =>
    intro i st h
    simp [readLoop, readOutcomes, fullReads, ← h]
  | succ n ih =>
    intro i st h
    unfold readLoop readOutcomes
    rcases hr : tb.FSRead st ref (toSInt32 size) with ⟨err, br, st1⟩
    simp only
    by_cases he : err ≠ noErr
    · rw [if_pos he, fullReads_cons_of_not _ _ _ (fullRead_of_err size err br he)]
      rfl
    · by_cases hb : br % 2 ^ 32 ≠ (size : Int)
      · rw [if_neg he, if_pos hb, fullReads_cons_of_not _ _ _ (fullRead_of_count size err br hb)]
        rfl
      · rw [if_neg he, if_neg hb, ih (i + 1) st1 (by omega),
          fullReads_cons_of_full _ _ _
            (fullRead_of_both size err br (not_not.mp he) (not_not.mp hb))]
        congr 1
        omega

theorem fullReads_le (size : Nat) (l : List (OSErr × Int)) : fullReads size l ≤ l.length := by
  unfold fullReads
  exact (List.takeWhile_sublist _).length_le

theorem readOutcomes_length {σ : Type} (tb : Toolbox σ) (ref : Int) (size : Nat) :
    ∀ (n : Nat) (st : σ), (readOutcomes tb ref size n st).length = n := by
  intro n
  induction n with
  | zero => intro st; rfl
  | succ n ih => intro st; simp [readOutcomes, ih]

theorem readLoop_calls {σ : Type} (tb : Toolbox σ) (ref : Int) (size count : Nat) :
    ∀ (n i : Nat) (st : σ) (log : List Call),
      ((readLoop (traced tb) ref size count n i (st, log)).2.2.filter Call.isFSRead).length =
        (log.filter Call.isFSRead).length +
          min (fullReads size (readOutcomes tb ref size n st) + 1) n := by
  intro n
  induction n with
  | zero =>
    intro i st log
    simp [readLoop]
  | succ n ih =>
    intro i st log
    unfold readLoop readOutcomes
    rw [traced_FSRead]
    rcases hr : tb.FSRead st ref (toSInt32 size) with ⟨err, br, st1⟩
    simp only [hr]
    by_cases he : err ≠ noErr
    · rw [if_pos he, fullReads_cons_of_not _ _ _ (fullRead_of_err size err br he),
        traced_setError]
      simp [Call.isFSRead]
    · by_cases hb : br % 2 ^ 32 ≠ (size : Int)
      · rw [if_neg he, if_pos hb,
          fullReads_cons_of_not _ _ _ (fullRead_of_count size err br hb), traced_setError]
        simp [Call.isFSRead]
      · rw [if_neg he, if_neg hb, ih (i + 1) st1,
          fullReads_cons_of_full _ _ _
            (fullRead_of_both size err br (not_not.mp he) (not_not.mp hb))]
        simp [Call.isFSRead]
        omega

/-- C5.  `__PHYSFS_platformRead` returns the number `k` of native reads that
completed with exactly `size` bytes before the first read that did not (an
error or another byte count); `k` is `count` when all `count` reads are full
and is never the failure sentinel `-1`; the function makes `k + 1` native
reads when a read fails and `count` otherwise, so none after the first failing
one.  For a read that transfers between 0 and `size` bytes, not full means an
error or fewer than `size` bytes. -/
theorem platformRead_short_count {σ : Type} (tb : Toolbox σ) (handle : FileHandle)
    (size count : Nat) (st : σ) (hsize : size < 2 ^ 32) :
    (__PHYSFS_platformRead tb handle size count st).1 =
      ((fullReads size (readOutcomes tb handle.ref size count st) : Nat) : Int) ∧
    fullReads size (readOutcomes tb handle.ref size count st) ≤ count ∧
    ((∀ o ∈ readOutcomes tb handle.ref size count st, fullRead size o = true) →
      (__PHYSFS_platformRead tb handle size count st).1 = (count : Int)) ∧
    (__PHYSFS_platformRead tb handle size count st).1 ≠ -1 ∧
    ((__PHYSFS_platformRead (traced tb) handle size count (st, [])).2.2.filter
        Call.isFSRead).length =
      min (fullReads size (readOutcomes tb handle.ref size count st) + 1) count ∧
    (∀ o : OSErr × Int, 0 ≤ o.2 → o.2 ≤ (size : Int) →
      (fullRead size o = true ↔ o.1 = noErr ∧ o.2 = (size : Int)) ∧
      (fullRead size o = false ↔ o.1 ≠ noErr ∨ o.2 < (size : Int))) := by
  have hres : (__PHYSFS_platformRead tb handle size count st).1 = _ :=
    readLoop_result tb handle.ref size count count 0 st (by omega)
  have hle : fullReads size (readOutcomes tb handle.ref size count st) ≤ count := by
    have := fullReads_le size (readOutcomes tb handle.ref size count st)
    rwa [readOutcomes_length] at this
  simp only [Nat.zero_add] at hres
  refine ⟨hres, hle, ?_, ?_, ?_, ?_⟩
  · intro hall
    rw [hres]
    have : (readOutcomes tb handle.ref size count st).takeWhile (fullRead size) =
        readOutcomes tb handle.ref size count st := List.takeWhile_eq_self_iff.mpr hall
    simp [fullReads, this, readOutcomes_length]
  · rw [hres]
    omega
  · have := readLoop_calls tb handle.ref size count count 0 st []
    simpa [__PHYSFS_platformRead] using this
  · intro o h0 hs
    have hmod : o.2 % 2 ^ 32 = o.2 := Int.emod_eq_of_lt h0 (by omega)
    constructor
    · simp only [fullRead, hmod, decide_eq_true_eq]
    · simp only [fullRead, hmod, decide_eq_false_iff_not, not_and_or]
      constructor
      · rintro (h | h)
        · exact Or.inl h
        · exact Or.inr (lt_of_le_of_ne hs h)
      · rintro (h | h)
        · exact Or.inl h
        · exact Or.inr (ne_of_lt h)

/-- Witness of C5: with `count = 5` and `size = 10`, three full reads followed
by a short read of 4 bytes make the function return 3. -/
theorem platformRead_short_count_witness :
    (10 : Nat) < 2 ^ 32 ∧
    (__PHYSFS_platformRead scriptedReader ⟨0, 1⟩ 10 5
      [(noErr, 10), (noErr, 10), (noErr, 10), (noErr, 4), (noErr, 10)]).1 = 3 :=
  ⟨by decide,
   (platformRead_short_count scriptedReader ⟨0, 1⟩ 10 5
      [(noErr, 10), (noErr, 10), (noErr, 10), (noErr, 4), (noErr, 10)] (by decide)).1.trans
     (by decide)⟩

/-! ## Properties of the metadata accessor -/

/-- The value returned by a successful `__PHYSFS_platformGetLastModTime`: with
`t` the 32-bit modification date selected from the catalog block, it is
`t - 2082844800` when `t` is at least 2082844800, and `t + 2212122496`
otherwise. -/
theorem platformGetLastModTime_value {σ : Type} (tb : Toolbox σ) (fname : List Char) (st : σ)
    (spec : FSSpec) (st1 st2 : σ) (pb : CInfoPBRec) (t : Nat)
    (hres : fnameToFSSpec tb fname default st = (noErr, spec, st1))
    (hcat : tb.PBGetCatInfoSync st1
      { CInfoPBRec.zeroed spec.name with
        ioVRefNum := spec.vRefNum, ioDrDirID := spec.parID, ioFDirIndex := 0 } = (noErr, pb, st2))
    (ht : t = (if pb.ioFlAttrib &&& kioFlAttribDirMask ≠ 0 then pb.ioDrMdDat else pb.ioFlMdDat))
    (hlt : t < 2 ^ 32) :
    (__PHYSFS_platformGetLastModTime tb fname st).1 =
      if 2082844800 ≤ t then (t : Int) - 2082844800 else (t : Int) + 2212122496 := by
  unfold __PHYSFS_platformGetLastModTime
  simp only [hres, hcat, ne_eq, not_true_eq_false, if_false, ← ht]
  rw [Nat.mod_eq_of_lt hlt]
  split
  · have : (t + 2 ^ 32 - 2082844800) % 2 ^ 32 = t - 2082844800 := by omega
    rw [this]
    omega
  · have : (t + 2 ^ 32 - 2082844800) % 2 ^ 32 = t + 2212122496 := by omega
    rw [this]
    push_cast
    rfl

/-- C6 (evaluation at the failing input).  In `datedHD` the native date
2082844800 of `epoch.txt` is returned as 0, but the native date 0 of `old.txt`
is returned as 2212122496, which is not `0 - 2082844800`: the subtraction is
made in the unsigned 32-bit variable `modDate` and wraps. -/
theorem platformGetLastModTime_wraps :
    (__PHYSFS_platformGetLastModTime (fileManager noFaults) "HD:epoch.txt".toList datedHD).1 = 0 ∧
    (__PHYSFS_platformGetLastModTime (fileManager noFaults) "HD:old.txt".toList datedHD).1 =
      2212122496 ∧
    (__PHYSFS_platformGetLastModTime (fileManager noFaults) "HD:old.txt".toList datedHD).1 ≠
      (0 : Int) - 2082844800 := by
  refine ⟨by decide, by decide, by decide⟩

/-! ## Properties of the path-format conversion -/

theorem cvtLoop_eq (src written : List Char) :
    cvtLoop src written = written ++ src.map (fun c => if c = '/' then ':' else c) := by
  induction src generalizing written with
  | nil => simp [cvtLoop]
  | cons c cs ih => simp [cvtLoop, ih]

/-- The string returned by `__PHYSFS_platformCvtToDependent` when allocation
succeeds: the prefix followed by the converted relative path.  The suffix is
counted in the size of the block and never copied. -/
theorem platformCvtToDependent_value {σ : Type} (tb : Toolbox σ)
    (prepend : Option (List Char)) (dirName : List Char) (append : Option (List Char))
    (st : σ) (r : HeapString) (st1 : σ)
    (h : __PHYSFS_platformCvtToDependent tb prepend dirName append st = (some r, st1)) :
    r.str = prepend.getD [] ++ dirName.map (fun c => if c = '/' then ':' else c) := by
  unfold __PHYSFS_platformCvtToDependent at h
  simp only at h
  split at h
  · simp at h
  · simp only [Prod.mk.injEq, Option.some.injEq] at h
    rw [← h.1, cvtLoop_eq]
    cases prepend <;> rfl

/-- C7 (evaluation at the failing input).  With the prefix `HD:`, the relative
path `docs/a.txt` and the suffix `.bak`, allocation succeeding, the returned
string is `HD:docs:a.txt`: the suffix is missing. -/
theorem platformCvtToDependent_drops_append :
    (__PHYSFS_platformCvtToDependent (fileManager noFaults) (some "HD:".toList)
      "docs/a.txt".toList (some ".bak".toList) datedHD).1 =
        some ⟨0, "HD:docs:a.txt".toList⟩ ∧
    "HD:docs:a.txt".toList ≠ "HD:".toList ++ "docs:a.txt".toList ++ ".bak".toList := by
  refine ⟨by decide, by decide⟩

/-! ## Properties of the directory lister -/

theorem toUInt16_succ (i max : Nat) (hi : i ≤ max) (hmax : max < 65535) :
    toUInt16 (i + 1) = i + 1 := by
  unfold toUInt16
  omega

/-- One iteration of the loop of `__PHYSFS_platformEnumerateFiles`, when
allocation succeeds and leaves the outside world as it is: the candidate is
probed and appended unless it is left out. -/
theorem enumerateLoop_step {σ : Type} (tb : Toolbox σ) (omitSymLinks : Bool)
    (vRefNum dirID : Int) (max fuel i : Nat) (retval : List (List Char)) (st : σ)
    (hmalloc : ∀ (s : σ) (n : Nat), ∃ p, tb.malloc s n = (some p, s)) (hi : i ≤ max) :
    enumerateLoop tb omitSymLinks vRefNum dirID max (fuel + 1) i retval st =
      enumerateLoop tb omitSymLinks vRefNum dirID max fuel (toUInt16 (i + 1))
        (retval ++ (((probeEntry tb vRefNum dirID (toSInt16 i) st).1.toList.filter
          (fun e => !(e.2 && omitSymLinks))).map (fun e => e.1)))
        (probeEntry tb vRefNum dirID (toSInt16 i) st).2 := by
  rcases hpb : tb.PBGetCatInfoSync st
    { CInfoPBRec.zeroed [] with
      ioVRefNum := vRefNum, ioDrDirID := dirID, ioFDirIndex := toSInt16 i } with ⟨e1, pb, st1⟩
  rcases hsp : tb.FSMakeFSSpec st1 vRefNum dirID pb.ioName with ⟨e2, sp, st2⟩
  rcases hal : tb.IsAliasFile st2 sp with ⟨e3, a, st3⟩
  obtain ⟨p1, hp1⟩ := hmalloc st3 sizeofLinkedStringList
  obtain ⟨p2, hp2⟩ := hmalloc st3 (pb.ioName.length + 1)
  rw [enumerateLoop, if_pos hi]
  simp only [probeEntry, hpb]
  by_cases h1 : e1 ≠ noErr
  · simp [h1]
  · simp only [if_neg h1, hsp]
    by_cases h2 : e2 ≠ noErr
    · simp [h2]
    · simp only [if_neg h2, hal]
      by_cases h3 : e3 ≠ noErr
      · simp [h3]
      · simp only [if_neg h3]
        cases a <;> cases omitSymLinks <;> simp [hp1, hp2]

/-- The loop of `__PHYSFS_platformEnumerateFiles` for a child count below
65535: it ends, and appends the names of the listed entries that are not left
out, in the order of the positions. -/
theorem enumerateLoop_eq {σ : Type} (tb : Toolbox σ) (omitSymLinks : Bool)
    (vRefNum dirID : Int) (max : Nat)
    (hmalloc : ∀ (s : σ) (n : Nat), ∃ p, tb.malloc s n = (some p, s)) (hmax : max < 65535) :
    ∀ (k i fuel : Nat) (retval : List (List Char)) (st : σ),
      i + k = max + 1 → k < fuel →
      enumerateLoop tb omitSymLinks vRefNum dirID max fuel i retval st =
        some (retval ++
          (((listedEntries tb vRefNum dirID toSInt16 (List.range' i k) st).1.filter
            (fun e => !(e.2 && omitSymLinks))).map (fun e => e.1)),
          (listedEntries tb vRefNum dirID toSInt16 (List.range' i k) st).2) := by
  intro k
  induction k with
  | zero =>
    intro i fuel retval st hik hfuel
    obtain ⟨f, rfl⟩ : ∃ f, fuel = f + 1 := ⟨fuel - 1, by omega⟩
    rw [enumerateLoop, if_neg (by omega)]
    simp [listedEntries]
  | succ k ih =>
    intro i fuel retval st hik hfuel
    obtain ⟨f, rfl⟩ : ∃ f, fuel = f + 1 := ⟨fuel - 1, by omega⟩
    rw [enumerateLoop_step tb omitSymLinks vRefNum dirID max f i retval st hmalloc (by omega),
      toUInt16_succ i max (by omega) hmax, ih (i + 1) f _ _ (by omega) (by omega)]
    simp only [List.range'_succ, listedEntries]
    rcases probeEntry tb vRefNum dirID (toSInt16 i) st with ⟨r, st1⟩
    rcases listedEntries tb vRefNum dirID toSInt16 (List.range' (i + 1) k) st1 with ⟨es, st2⟩
    simp

/-- The loop of `__PHYSFS_platformEnumerateFiles` for the child count 65535:
the 16-bit counter wraps before it can exceed the count, and the loop does not
end. -/
theorem enumerateLoop_never_ends {σ : Type} (tb : Toolbox σ) (omitSymLinks : Bool)
    (vRefNum dirID : Int)
    (hmalloc : ∀ (s : σ) (n : Nat), ∃ p, tb.malloc s n = (some p, s)) :
    ∀ (fuel i : Nat) (retval : List (List Char)) (st : σ), i ≤ 65535 →
      enumerateLoop tb omitSymLinks vRefNum dirID 65535 fuel i retval st = none := by
  intro fuel
  induction fuel with
  | zero => intro i retval st _; rfl
  | succ f ih =>
    intro i retval st hi
    rw [enumerateLoop_step tb omitSymLinks vRefNum dirID 65535 f i retval st hmalloc hi]
    exact ih _ _ _ (by unfold toUInt16; omega)

/-- A candidate entry is listed exactly when its catalog fetch, the
`FSMakeFSSpec` of the fetched name and `IsAliasFile` all succeed. -/
theorem probeEntry_isSome_iff {σ : Type} (tb : Toolbox σ) (vRefNum dirID index : Int) (st : σ) :
    (probeEntry tb vRefNum dirID index st).1.isSome = true ↔
      (tb.PBGetCatInfoSync st
        { CInfoPBRec.zeroed [] with
          ioVRefNum := vRefNum, ioDrDirID := dirID, ioFDirIndex := index }).1 = noErr ∧
      (tb.FSMakeFSSpec
        (tb.PBGetCatInfoSync st
          { CInfoPBRec.zeroed [] with
            ioVRefNum := vRefNum, ioDrDirID := dirID, ioFDirIndex := index }).2.2
        vRefNum dirID
        (tb.PBGetCatInfoSync st
          { CInfoPBRec.zeroed [] with
            ioVRefNum := vRefNum, ioDrDirID := dirID, ioFDirIndex := index }).2.1.ioName).1
        = noErr ∧
      (tb.IsAliasFile
        (tb.FSMakeFSSpec
          (tb.PBGetCatInfoSync st
            { CInfoPBRec.zeroed [] with
              ioVRefNum := vRefNum, ioDrDirID := dirID, ioFDirIndex := index }).2.2
          vRefNum dirID
          (tb.PBGetCatInfoSync st
            { CInfoPBRec.zeroed [] with
              ioVRefNum := vRefNum, ioDrDirID := dirID, ioFDirIndex := index }).2.1.ioName).2.2
        (tb.FSMakeFSSpec
          (tb.PBGetCatInfoSync st
            { CInfoPBRec.zeroed [] with
              ioVRefNum := vRefNum, ioDrDirID := dirID, ioFDirIndex := index }).2.2
          vRefNum dirID
          (tb.PBGetCatInfoSync st
            { CInfoPBRec.zeroed [] with
              ioVRefNum := vRefNum, ioDrDirID := dirID, ioFDirIndex := index }).2.1.ioName).2.1).1
        = noErr := by
  rcases hpb : tb.PBGetCatInfoSync st
    { CInfoPBRec.zeroed [] with
      ioVRefNum := vRefNum, ioDrDirID := dirID, ioFDirIndex := index } with ⟨e1, pb, st1⟩
  rcases hsp : tb.FSMakeFSSpec st1 vRefNum dirID pb.ioName with ⟨e2, sp, st2⟩
  rcases hal : tb.IsAliasFile st2 sp with ⟨e3, a, st3⟩
  simp only [probeEntry, hpb, hsp, hal]
  by_cases h1 : e1 = noErr <;> by_cases h2 : e2 = noErr <;> by_cases h3 : e3 = noErr <;>
    simp [h1, h2, h3]

/-- The prologue of `__PHYSFS_platformEnumerateFiles`: when the name resolves to
a directory, the function is its loop entered at 1 with the empty list. -/
theorem platformEnumerateFiles_of_directory {σ : Type} (tb : Toolbox σ) (fuel : Nat)
    (dirname : List Char) (omitSymLinks : Bool) (st : σ) (spec : FSSpec) (st1 st2 : σ)
    (pb : CInfoPBRec)
    (hres : fnameToFSSpec tb dirname default st = (noErr, spec, st1))
    (hcat : tb.PBGetCatInfoSync st1
      { CInfoPBRec.zeroed spec.name with
        ioVRefNum := spec.vRefNum, ioDrDirID := spec.parID, ioFDirIndex := 0 } = (noErr, pb, st2))
    (hdir : pb.ioFlAttrib &&& kioFlAttribDirMask ≠ 0) :
    __PHYSFS_platformEnumerateFiles tb fuel dirname omitSymLinks st =
      enumerateLoop tb omitSymLinks spec.vRefNum pb.ioDrDirID (toUInt16 pb.ioDrNmFls)
        fuel 1 [] st2 := by
  unfold __PHYSFS_platformEnumerateFiles
  simp only [hres, hcat, ne_eq, not_true_eq_false, if_false, if_neg hdir]

/-- C8.  Let the name resolve to a directory whose catalog block reports the
child count `N`, and let allocation succeed and leave the outside world as it
is.  When `N` is below 65535 both calls return, in the same final state: with
`omitSymLinks` false the names of the listed entries, with `omitSymLinks` true
the names of the listed entries that are not aliases, in the same order.  When
`N` is 65535 neither call returns. -/
theorem platformEnumerateFiles_omission {σ : Type} (tb : Toolbox σ) (dirname : List Char)
    (st : σ) (spec : FSSpec) (st1 st2 : σ) (pb : CInfoPBRec)
    (hmalloc : ∀ (s : σ) (n : Nat), ∃ p, tb.malloc s n = (some p, s))
    (hres : fnameToFSSpec tb dirname default st = (noErr, spec, st1))
    (hcat : tb.PBGetCatInfoSync st1
      { CInfoPBRec.zeroed spec.name with
        ioVRefNum := spec.vRefNum, ioDrDirID := spec.parID, ioFDirIndex := 0 } = (noErr, pb, st2))
    (hdir : pb.ioFlAttrib &&& kioFlAttribDirMask ≠ 0) :
    (toUInt16 pb.ioDrNmFls < 65535 → ∀ fuel : Nat, toUInt16 pb.ioDrNmFls < fuel →
      __PHYSFS_platformEnumerateFiles tb fuel dirname false st =
        some (((listedEntries tb spec.vRefNum pb.ioDrDirID toSInt16
            (List.range' 1 (toUInt16 pb.ioDrNmFls)) st2).1).map (fun e => e.1),
          (listedEntries tb spec.vRefNum pb.ioDrDirID toSInt16
            (List.range' 1 (toUInt16 pb.ioDrNmFls)) st2).2) ∧
      __PHYSFS_platformEnumerateFiles tb fuel dirname true st =
        some ((((listedEntries tb spec.vRefNum pb.ioDrDirID toSInt16
            (List.range' 1 (toUInt16 pb.ioDrNmFls)) st2).1).filter
              (fun e => !e.2)).map (fun e => e.1),
          (listedEntries tb spec.vRefNum pb.ioDrDirID toSInt16
            (List.range' 1 (toUInt16 pb.ioDrNmFls)) st2).2)) ∧
    (toUInt16 pb.ioDrNmFls = 65535 → ∀ (fuel : Nat) (omitSymLinks : Bool),
      __PHYSFS_platformEnumerateFiles tb fuel dirname omitSymLinks st = none) := by
  constructor
  · intro hN fuel hfuel
    rw [platformEnumerateFiles_of_directory tb fuel dirname false st spec st1 st2 pb hres hcat hdir,
      platformEnumerateFiles_of_directory tb fuel dirname true st spec st1 st2 pb hres hcat hdir,
      enumerateLoop_eq tb false _ _ _ hmalloc hN _ 1 fuel [] st2 (by omega) hfuel,
      enumerateLoop_eq tb true _ _ _ hmalloc hN _ 1 fuel [] st2 (by omega) hfuel]
    simp
  · intro hN fuel omitSymLinks
    rw [platformEnumerateFiles_of_directory tb fuel dirname omitSymLinks st spec st1 st2 pb
      hres hcat hdir, hN]
    exact enumerateLoop_never_ends tb omitSymLinks _ _ hmalloc fuel 1 [] st2 (by omega)

/-- Witness of C8: the top directory of `macintoshHD` holds `Archive`, the alias
`Docs` and `Work`; the listing is these three names, and the two that are not
aliases when aliases are omitted. -/
theorem platformEnumerateFiles_omission_witness :
    __PHYSFS_platformEnumerateFiles (fileManager noFaults) 4 "Macintosh HD".toList false
      macintoshHD = some (["Archive".toList, "Docs".toList, "Work".toList], macintoshHD) ∧
    __PHYSFS_platformEnumerateFiles (fileManager noFaults) 4 "Macintosh HD".toList true
      macintoshHD = some (["Archive".toList, "Work".toList], macintoshHD) := by
  have h := (platformEnumerateFiles_omission (fileManager noFaults) "Macintosh HD".toList
    macintoshHD ⟨-1, 1, "Macintosh HD".toList⟩ macintoshHD macintoshHD
    (catGetCatInfo macintoshHD
      { CInfoPBRec.zeroed "Macintosh HD".toList with
        ioVRefNum := -1, ioDrDirID := 1, ioFDirIndex := 0 }).2
    (fun _ _ => ⟨0, rfl⟩) (by decide) (by decide) (by decide)).1 (by decide) 4 (by decide)
  refine ⟨h.1.trans (by decide), h.2.trans (by decide)⟩

/-- After `macDoOpen` has returned a handle, a failing `SetEOF` makes
`__PHYSFS_platformOpenWrite` close the file, record the error and return
`NULL`; no other native call is made, in particular no `HDelete`. -/
theorem platformOpenWrite_truncate_failure {σ : Type} (tb : Toolbox σ) (filename : List Char)
    (st : σ) (h : FileHandle) (s1 : σ)
    (hopen : macDoOpen tb filename fsRdWrPerm true st = (some h, s1))
    (hfail : (tb.SetEOF s1 h.ref 0).1 ≠ noErr) :
    __PHYSFS_platformOpenWrite tb filename st =
      (none, tb.setError (tb.FSClose (tb.SetEOF s1 h.ref 0).2 h.ref).2 .ERR_OS_ERROR) := by
  simp only [__PHYSFS_platformOpenWrite, hopen]
  rw [if_pos hfail]

/-- After `macDoOpen` has returned a handle and `SetEOF` has succeeded, a
failing `SetFPos` makes `__PHYSFS_platformOpenWrite` close the file, record the
error and return `NULL`; no other native call is made, in particular no
`HDelete`. -/
theorem platformOpenWrite_seek_failure {σ : Type} (tb : Toolbox σ) (filename : List Char)
    (st : σ) (h : FileHandle) (s1 : σ)
    (hopen : macDoOpen tb filename fsRdWrPerm true st = (some h, s1))
    (htrunc : (tb.SetEOF s1 h.ref 0).1 = noErr)
    (hfail : (tb.SetFPos (tb.SetEOF s1 h.ref 0).2 h.ref fsFromStart 0).1 ≠ noErr) :
    __PHYSFS_platformOpenWrite tb filename st =
      (none, tb.setError
        (tb.FSClose (tb.SetFPos (tb.SetEOF s1 h.ref 0).2 h.ref fsFromStart 0).2 h.ref).2
        .ERR_OS_ERROR) := by
  simp only [__PHYSFS_platformOpenWrite, hopen]
  rw [if_neg (not_not.mpr htrunc), if_pos hfail]

/-- C4 (evaluation at the failing input).  In `macintoshHD` there is no entry
`new.txt` at the top of the volume.  Opening `Macintosh HD:new.txt` for writing
creates and opens it; when the truncation fails, and likewise when the seek
fails, the call returns `NULL` and the catalog afterwards still holds the
entry created during the call. -/
theorem platformOpenWrite_leaves_created_file :
    findChild macintoshHD (-1) 2 "new.txt".toList = none ∧
    (macDoOpen (fileManager truncateFails) "Macintosh HD:new.txt".toList fsRdWrPerm true
      macintoshHD).1.isSome = true ∧
    (__PHYSFS_platformOpenWrite (fileManager truncateFails) "Macintosh HD:new.txt".toList
      macintoshHD).1 = none ∧
    (findChild (__PHYSFS_platformOpenWrite (fileManager truncateFails)
      "Macintosh HD:new.txt".toList macintoshHD).2 (-1) 2 "new.txt".toList).isSome = true ∧
    (__PHYSFS_platformOpenWrite (fileManager seekFails) "Macintosh HD:new.txt".toList
      macintoshHD).1 = none ∧
    (findChild (__PHYSFS_platformOpenWrite (fileManager seekFails)
      "Macintosh HD:new.txt".toList macintoshHD).2 (-1) 2 "new.txt".toList).isSome = true ∧
    (__PHYSFS_platformOpenWrite (fileManager truncateFails) "Macintosh HD:new.txt".toList
      macintoshHD).2 ≠ macintoshHD := by
  refine ⟨by decide, by decide, by decide, by decide, by decide, by decide, by decide⟩

/-! ## Round trip between the location codec and the path resolver -/

theorem cstr_eq_self (s : List Char) (h : Char.ofNat 0 ∉ s) : cstr s = s := by
  unfold cstr
  rw [List.takeWhile_eq_self_iff]
  intro c hc
  have : c ≠ Char.ofNat 0 := fun heq => h (heq ▸ hc)
  simpa using this

theorem joinColon_cons_cons (c c2 : List Char) (cs : List (List Char)) :
    joinColon (c :: c2 :: cs) = c ++ ':' :: joinColon (c2 :: cs) := rfl

theorem joinColon_append_singleton (c : List Char) (cs : List (List Char)) (x : List Char) :
    joinColon (c :: cs ++ [x]) = joinColon (c :: cs) ++ ':' :: x := by
  induction cs generalizing c with
  | nil => rfl
  | cons d ds ih =>
    have := ih d
    simp only [List.cons_append] at this ⊢
    rw [joinColon_cons_cons, this, joinColon_cons_cons]
    simp

theorem splitColon_of_not_mem (c : List Char) (h : ':' ∉ c) : splitColon c = [c] := by
  induction c with
  | nil => rfl
  | cons x xs ih =>
    have hx : x ≠ ':' := fun heq => h (heq ▸ List.mem_cons_self _ _)
    have hxs : ':' ∉ xs := fun hm => h (List.mem_cons_of_mem _ hm)
    simp [splitColon, hx, ih hxs]

theorem splitColon_append_colon (c rest : List Char) (h : ':' ∉ c) :
    splitColon (c ++ ':' :: rest) = c :: splitColon rest := by
  induction c with
  | nil => simp [splitColon]
  | cons x xs ih =>
    have hx : x ≠ ':' := fun heq => h (heq ▸ List.mem_cons_self _ _)
    have hxs : ':' ∉ xs := fun hm => h (List.mem_cons_of_mem _ hm)
    simp [splitColon, hx, ih hxs]

theorem splitColon_joinColon (c : List Char) (cs : List (List Char))
    (h : ∀ x ∈ c :: cs, ':' ∉ x) : splitColon (joinColon (c :: cs)) = c :: cs := by
  induction cs generalizing c with
  | nil => exact splitColon_of_not_mem c (h c (List.mem_cons_self _ _))
  | cons d ds ih =>
    rw [joinColon_cons_cons, splitColon_append_colon c _ (h c (List.mem_cons_self _ _)),
      ih d (fun x hx => h x (List.mem_cons_of_mem _ hx))]

theorem take_set_colon (s : List Char) (x : Char) :
    ((s ++ [x]).take (s.length + 1)).set (s.length + 1 - 1) ':' = s ++ [':'] := by
  have : (s ++ [x]).take (s.length + 1) = s ++ [x] := by
    apply List.take_of_length_le
    simp
  rw [this]
  simp

theorem take_append_length (s : List Char) (x : Char) :
    (s ++ [x]).take (s.length + 0) = s := by
  simp

theorem Consistent.findChild_self {cat : Catalog} (h : Consistent cat) {e : CatEntry}
    (he : e ∈ cat) : findChild cat e.vRefNum e.parID e.name = some e := (h e he).1

theorem Consistent.findDir_self {cat : Catalog} (h : Consistent cat) {e : CatEntry}
    (he : e ∈ cat) (hd : e.isDir = true) : findDir cat e.vRefNum e.cnid = some e :=
  (h e he).2.1 hd

theorem Consistent.root_isDir {cat : Catalog} (h : Consistent cat) {e : CatEntry}
    (he : e ∈ cat) (hp : e.parID = fsRtParID) : e.isDir = true := (h e he).2.2.1 hp

theorem Consistent.root_iff {cat : Catalog} (h : Consistent cat) {e : CatEntry}
    (he : e ∈ cat) : e.parID = fsRtParID ↔ e.cnid = fsRtDirID := (h e he).2.2.2.1

theorem Consistent.cnid_ne {cat : Catalog} (h : Consistent cat) {e : CatEntry}
    (he : e ∈ cat) : e.cnid ≠ fsRtParID := (h e he).2.2.2.2.1

theorem Consistent.name_ne_nil {cat : Catalog} (h : Consistent cat) {e : CatEntry}
    (he : e ∈ cat) : e.name ≠ [] := (h e he).2.2.2.2.2.1

theorem Consistent.colon_not_mem {cat : Catalog} (h : Consistent cat) {e : CatEntry}
    (he : e ∈ cat) : ':' ∉ e.name := (h e he).2.2.2.2.2.2

/-- A well-formed catalog is a consistent catalog in which every root directory
is the one found under its volume name and no name contains a NUL. -/
theorem wellFormed_iff (cat : Catalog) :
    WellFormed cat ↔
      Consistent cat ∧
      (∀ e ∈ cat, e.parID = fsRtParID → findVolume cat e.name = some e) ∧
      (∀ e ∈ cat, Char.ofNat 0 ∉ e.name) := by
  constructor
  · intro h
    refine ⟨fun e he => ?_, fun e he hp => ((h e he).2.2.1 hp).2,
      fun e he => (h e he).2.2.2.2.2.2.2⟩
    obtain ⟨h1, h2, h3, h4, h5, h6, h7, _⟩ := h e he
    exact ⟨h1, h2, fun hp => (h3 hp).1, h4, h5, h6, h7⟩
  · rintro ⟨hc, hv, hn⟩ e he
    obtain ⟨h1, h2, h3, h4, h5, h6, h7⟩ := hc e he
    exact ⟨h1, h2, fun hp => ⟨h3 hp, hv e he hp⟩, h4, h5, h6, h7, hn e he⟩

theorem Reachable.mem {cat : Catalog} {root e : CatEntry} {comps : List (List Char)}
    (h : Reachable cat root e comps) : e ∈ cat := by
  cases h with
  | root hm _ => exact hm
  | child p _ _ _ _ hm _ _ => exact hm

theorem Reachable.root_mem {cat : Catalog} {root e : CatEntry} {comps : List (List Char)}
    (h : Reachable cat root e comps) : root ∈ cat ∧ root.parID = fsRtParID := by
  induction h with
  | root hm hp => exact ⟨hm, hp⟩
  | child p e comps _ _ _ _ _ ih => exact ih

theorem Reachable.vRefNum_eq {cat : Catalog} {root e : CatEntry} {comps : List (List Char)}
    (h : Reachable cat root e comps) : e.vRefNum = root.vRefNum := by
  induction h with
  | root _ _ => rfl
  | child p e comps _ _ _ hv _ ih => rw [hv, ih]

theorem Reachable.comps_names {cat : Catalog} {root e : CatEntry} {comps : List (List Char)}
    (h : Reachable cat root e comps) : ∀ c ∈ comps, ∃ x ∈ cat, x.name = c := by
  induction h with
  | root _ _ => intro c hc; simp at hc
  | child p e comps _ _ hm _ _ ih =>
    intro c hc
    rw [List.mem_append] at hc
    rcases hc with hc | hc
    · exact ih c hc
    · simp at hc
      exact ⟨e, hm, hc.symm⟩

theorem Reachable.name_mem {cat : Catalog} {root e : CatEntry} {comps : List (List Char)}
    (h : Reachable cat root e comps) : e.name ∈ root.name :: comps := by
  cases h with
  | root _ _ => exact List.mem_cons_self _ _
  | child p _ comps0 _ _ _ _ _ => simp

/-- The query calls of the File Manager leave the catalog as it is. -/
theorem fileManager_PBGetCatInfoSync (faults : Faults) (cat : Catalog) (pb : CInfoPBRec) :
    (fileManager faults).PBGetCatInfoSync cat pb =
      ((catGetCatInfo cat pb).1, (catGetCatInfo cat pb).2, cat) := rfl

theorem fileManager_FSMakeFSSpec (faults : Faults) (cat : Catalog) (v d : Int)
    (n : List Char) :
    (fileManager faults).FSMakeFSSpec cat v d n =
      ((catFSMakeFSSpec cat v d n).1, (catFSMakeFSSpec cat v d n).2, cat) := rfl

theorem fileManager_ResolveAlias (faults : Faults) (cat : Catalog) (spec : FSSpec) :
    (fileManager faults).ResolveAliasFileWithMountFlags cat spec =
      ((catResolveAlias cat spec).1, (catResolveAlias cat spec).2, cat) := rfl

theorem fileManager_malloc (faults : Faults) (cat : Catalog) (n : Nat) :
    (fileManager faults).malloc cat n = (some 0, cat) := rfl

theorem fileManager_free (faults : Faults) (cat : Catalog) (a : Nat) :
    (fileManager faults).free cat a = cat := rfl

/-- The catalog fetch of a directory by its own id (negative index). -/
theorem catGetCatInfo_dir {cat : Catalog} (hwf : Consistent cat) {e : CatEntry} (he : e ∈ cat)
    (hd : e.isDir = true) (pb : CInfoPBRec) (hv : pb.ioVRefNum = e.vRefNum)
    (hid : pb.ioDrDirID = e.cnid) (hidx : pb.ioFDirIndex = -1) :
    catGetCatInfo cat pb = (noErr, fillInfo cat pb e e.name) := by
  unfold catGetCatInfo
  rw [hidx, if_neg (by decide), if_neg (fun h => absurd h.1 (by decide)), hv, hid,
    hwf.findDir_self he hd]

/-- The catalog fetch of an entry by its name (index 0). -/
theorem catGetCatInfo_name {cat : Catalog} (hwf : Consistent cat) {e : CatEntry} (he : e ∈ cat)
    (pb : CInfoPBRec) (hv : pb.ioVRefNum = e.vRefNum)
    (hid : pb.ioDrDirID = e.parID) (hn : pb.ioName = e.name) (hidx : pb.ioFDirIndex = 0) :
    catGetCatInfo cat pb = (noErr, fillInfo cat pb e e.name) := by
  unfold catGetCatInfo
  have hne : pb.ioName ≠ [] := hn ▸ hwf.name_ne_nil he
  rw [hidx, if_neg (by decide), if_pos ⟨rfl, hne⟩, hv, hid, hn, hwf.findChild_self he]

/-- The loop of `convFSSpecToPath` from a directory reached by `comps`: it ends
within `comps.length + 1` iterations and puts the full pathname of the
directory in front of the text already built. -/
theorem convFSSpecToPathLoop_dir (faults : Faults) {cat : Catalog} (hwf : Consistent cat)
    {root p : CatEntry} {comps : List (List Char)} (hreach : Reachable cat root p comps)
    (hd : p.isDir = true) :
    ∀ (fuel : Nat) (infoPB : CInfoPBRec) (retLength a : Nat) (s : List Char),
      (∀ c ∈ root.name :: comps, Char.ofNat 0 ∉ c) →
      comps.length < fuel → infoPB.ioVRefNum = p.vRefNum → infoPB.ioDrParID = p.cnid →
      infoPB.ioFDirIndex = -1 →
      convFSSpecToPathLoop (fileManager faults) fuel infoPB retLength (some ⟨a, s⟩) cat =
        some (some ⟨0, joinColon (root.name :: comps) ++ ':' :: s⟩, cat) := by
  induction hreach with
  | root hm hp =>
    intro fuel infoPB retLength a s hnul hfuel hv hid hidx
    obtain ⟨f, rfl⟩ : ∃ f, fuel = f + 1 := ⟨fuel - 1, by simp at hfuel; omega⟩
    rw [convFSSpecToPathLoop]
    simp only [fileManager_PBGetCatInfoSync]
    rw [catGetCatInfo_dir hwf hm hd { infoPB with ioDrDirID := infoPB.ioDrParID } hv hid hidx]
    simp only [ne_eq, not_true_eq_false, if_false, fileManager_malloc, freeIfSet,
      fileManager_free, fillInfo, cstr_eq_self _ (hnul root.name (List.mem_cons_self _ _))]
    rw [if_neg (not_not.mpr ((hwf.root_iff hm).mp hp))]
    rfl
  | child q e comps hq hqd hm hv hpar ih =>
    intro fuel infoPB retLength a s hnul hfuel hv2 hid hidx
    obtain ⟨f, rfl⟩ : ∃ f, fuel = f + 1 := ⟨fuel - 1, by simp at hfuel; omega⟩
    rw [convFSSpecToPathLoop]
    simp only [fileManager_PBGetCatInfoSync]
    rw [catGetCatInfo_dir hwf hm hd { infoPB with ioDrDirID := infoPB.ioDrParID } hv2 hid hidx]
    have hne : e.cnid ≠ fsRtDirID := by
      intro hc
      have := (hwf.root_iff hm).mpr hc
      rw [hpar] at this
      exact hwf.cnid_ne hq.mem this
    simp only [ne_eq, not_true_eq_false, if_false, fileManager_malloc, freeIfSet,
      fileManager_free, fillInfo, cstr_eq_self _ (hnul e.name (by simp))]
    rw [if_pos hne]
    rw [ih hqd f _ _ 0 _
      (fun c hc => hnul c (by
        rcases List.mem_cons.mp hc with hc | hc
        · exact hc ▸ List.mem_cons_self _ _
        · exact List.mem_cons_of_mem _ (List.mem_append_left _ hc)))
      (by simp at hfuel; omega) (by simpa using hv2.trans hv) hpar rfl]
    have hj := joinColon_append_singleton root.name comps e.name
    rw [List.cons_append] at hj
    rw [hj]
    simp

/-- The location codec on a reachable entry: within `comps.length + 1`
iterations it returns the full pathname, the volume name followed by the
components that lead to the entry. -/
theorem convFSSpecToPath_reachable (faults : Faults) {cat : Catalog} (hwf : Consistent cat)
    {root e : CatEntry} {comps : List (List Char)} (hreach : Reachable cat root e comps)
    (hnul : ∀ c ∈ root.name :: comps, Char.ofNat 0 ∉ c)
    (fuel : Nat) (hfuel : comps.length < fuel) :
    convFSSpecToPath (fileManager faults) fuel e.spec true cat =
      some (some ⟨0, joinColon (root.name :: comps)⟩, cat) := by
  obtain ⟨f, rfl⟩ : ∃ f, fuel = f + 1 := ⟨fuel - 1, by omega⟩
  have hm := hreach.mem
  unfold convFSSpecToPath
  rw [convFSSpecToPathLoop]
  simp only [fileManager_PBGetCatInfoSync, if_true]
  rw [catGetCatInfo_name hwf hm
    { CInfoPBRec.zeroed e.spec.name with
      ioVRefNum := e.spec.vRefNum, ioDrParID := e.spec.parID, ioFDirIndex := 0,
      ioDrDirID := e.spec.parID } rfl rfl rfl rfl]
  simp only [ne_eq, not_true_eq_false, if_false, fileManager_malloc, freeIfSet,
    fileManager_free, fillInfo, cstr_eq_self _ (hnul e.name hreach.name_mem)]
  cases hreach with
  | root hm2 hp =>
    rw [if_neg (not_not.mpr ((hwf.root_iff hm).mp hp))]
    rfl
  | child q _ comps0 hq hqd hm2 hv hpar =>
    have hne : e.cnid ≠ fsRtDirID := by
      intro hc
      have := (hwf.root_iff hm).mpr hc
      rw [hpar] at this
      exact hwf.cnid_ne hq.mem this
    rw [if_pos hne]
    rw [convFSSpecToPathLoop_dir faults hwf hq hqd f _ _ 0 _
      (fun c hc => hnul c (by
        rcases List.mem_cons.mp hc with hc | hc
        · exact hc ▸ List.mem_cons_self _ _
        · exact List.mem_cons_of_mem _ (List.mem_append_left _ hc)))
      (by simp at hfuel; omega) (by simpa [CatEntry.spec] using hv) hpar rfl]
    have hj := joinColon_append_singleton root.name comps0 e.name
    rw [List.cons_append] at hj
    rw [hj]

/-- Walking down from the top of the volume along the components that reach a
directory, and then along further components, is walking down from that
directory along the further components. -/
theorem descend_reachable {cat : Catalog} (hwf : Consistent cat) {root p : CatEntry}
    {comps : List (List Char)} (hreach : Reachable cat root p comps) (hd : p.isDir = true) :
    ∀ (t : List Char) (ts : List (List Char)),
      descend cat root.vRefNum fsRtDirID (comps ++ t :: ts) =
        descend cat root.vRefNum p.cnid (t :: ts) := by
  induction hreach with
  | root hm hp =>
    intro t ts
    rw [List.nil_append, (hwf.root_iff hm).mp hp]
  | child q e comps hq hqd hm hv hpar ih =>
    intro t ts
    rw [List.append_assoc, List.singleton_append, ih hqd e.name (t :: ts), descend]
    have hf : findChild cat root.vRefNum q.cnid e.name = some e := by
      have := hwf.findChild_self hm
      rwa [hv, hq.vRefNum_eq, hpar] at this
    simp only [hf, hd, if_true]

/-- The lookup of the full pathname of a reachable entry finds the entry. -/
theorem descend_to_entry {cat : Catalog} (hwf : Consistent cat) {root q e : CatEntry}
    {comps : List (List Char)} (hq : Reachable cat root q comps) (hqd : q.isDir = true)
    (hm : e ∈ cat) (hv : e.vRefNum = q.vRefNum) (hpar : e.parID = q.cnid) :
    descend cat root.vRefNum fsRtDirID (comps ++ [e.name]) = (noErr, e.spec) := by
  rw [descend_reachable hwf hq hqd e.name [], descend]
  have hf : findChild cat root.vRefNum q.cnid e.name = some e := by
    have := hwf.findChild_self hm
    rwa [hv, hq.vRefNum_eq, hpar] at this
  simp only [hf, CatEntry.spec, hv, hq.vRefNum_eq, hpar]

theorem catResolveAlias_not_alias {cat : Catalog} (hwf : Consistent cat) {e : CatEntry}
    (hm : e ∈ cat) (hna : e.aliasTarget = none) :
    catResolveAlias cat e.spec = (noErr, e.spec) := by
  unfold catResolveAlias
  rw [resolveChain]
  simp only [CatEntry.spec, hwf.findChild_self hm, hna]

theorem contains_colon_append (a b : List Char) : (a ++ ':' :: b).contains ':' = true := by
  simp

theorem contains_colon_false (a : List Char) (h : ':' ∉ a) : a.contains ':' = false := by
  simpa using h

theorem head?_append_ne_colon (a b : List Char) (hne : a ≠ []) (h : ':' ∉ a) :
    (a ++ b).head? ≠ some ':' := by
  cases a with
  | nil => exact absurd rfl hne
  | cons x xs =>
    intro hc
    simp at hc
    exact h (hc ▸ List.mem_cons_self _ _)

theorem dropTrailingEmpty_append_singleton (cs : List (List Char)) (x : List Char)
    (hx : x ≠ []) : dropTrailingEmpty (cs ++ [x]) = cs ++ [x] := by
  unfold dropTrailingEmpty
  rw [if_neg]
  simp
  exact hx

/-- The name handed to `FSMakeFSSpec` for the full pathname of a reachable
entry: the pathname itself, with a colon appended when it is a bare volume
name. -/
theorem catFSMakeFSSpec_reachable {cat : Catalog} (hwf : Consistent cat) {root e : CatEntry}
    {comps : List (List Char)} (hreach : Reachable cat root e comps)
    (hvol : findVolume cat root.name = some root) (v d : Int) :
    catFSMakeFSSpec cat v d
      (if comps = [] then root.name ++ [':'] else joinColon (root.name :: comps)) =
      (noErr, e.spec) := by
  have hr := hreach.root_mem
  have hrc := hwf.colon_not_mem hr.1
  have hrn := hwf.name_ne_nil hr.1
  cases hreach with
  | root hm hp =>
    rw [if_pos rfl]
    unfold catFSMakeFSSpec
    rw [if_pos ⟨contains_colon_append _ _, head?_append_ne_colon _ _ hrn hrc⟩,
      splitColon_append_colon _ _ hrc]
    simp only [splitColon, hvol]
    rfl
  | child q _ comps0 hq hqd hm hv hpar =>
    have hcomps : ∀ x ∈ root.name :: (comps0 ++ [e.name]), ':' ∉ x := by
      intro x hx
      rcases List.mem_cons.mp hx with hx | hx
      · exact hx ▸ hrc
      · rcases List.mem_append.mp hx with hx | hx
        · obtain ⟨y, hy, rfl⟩ := hq.comps_names x hx
          exact hwf.colon_not_mem hy
        · simp at hx
          exact hx ▸ hwf.colon_not_mem hm
    rw [if_neg (by simp)]
    unfold catFSMakeFSSpec
    obtain ⟨c, cs, hcs⟩ : ∃ c cs, comps0 ++ [e.name] = c :: cs := by
      cases comps0 with
      | nil => exact ⟨_, _, rfl⟩
      | cons a as => exact ⟨_, _, rfl⟩
    have hcontains : (joinColon (root.name :: (comps0 ++ [e.name]))).contains ':' = true := by
      rw [hcs, joinColon_cons_cons]
      exact contains_colon_append _ _
    have hhead : (joinColon (root.name :: (comps0 ++ [e.name]))).head? ≠ some ':' := by
      rw [hcs, joinColon_cons_cons]
      exact head?_append_ne_colon _ _ hrn hrc
    rw [if_pos ⟨hcontains, hhead⟩, splitColon_joinColon _ _ hcomps]
    simp only [hvol,
      dropTrailingEmpty_append_singleton comps0 e.name (hwf.name_ne_nil hm)]
    rw [hcs]
    simp only
    rw [← hcs]
    exact descend_to_entry hwf hq hqd hm hv hpar

/-- The direct lookup of the full pathname of a reachable entry, when the
pathname fits in a `Str255`, finds the entry. -/
theorem fnameToFSSpecNoAlias_reachable (faults : Faults) {cat : Catalog} (hwf : Consistent cat)
    {root e : CatEntry} {comps : List (List Char)} (hreach : Reachable cat root e comps)
    (hvol : findVolume cat root.name = some root) (spec0 : FSSpec)
    (hlen : (joinColon (root.name :: comps)).length + (if comps = [] then 1 else 0) ≤ 255) :
    fnameToFSSpecNoAlias (fileManager faults) (joinColon (root.name :: comps)) spec0 cat =
      (noErr, e.spec, cat) := by
  have hr := hreach.root_mem
  have hrc := hwf.colon_not_mem hr.1
  have hmk := catFSMakeFSSpec_reachable hwf hreach hvol 0 0
  unfold fnameToFSSpecNoAlias
  by_cases hc : comps = []
  · subst hc
    rw [if_pos rfl] at hmk hlen
    have hjoin : joinColon [root.name] = root.name := rfl
    rw [hjoin] at hlen ⊢
    simp only [contains_colon_false _ hrc, Bool.not_false, if_true]
    rw [if_neg (by omega), take_set_colon, fileManager_FSMakeFSSpec, hmk]
  · rw [if_neg hc] at hmk hlen
    obtain ⟨c, cs, hcs⟩ : ∃ c cs, comps = c :: cs := by
      cases comps with
      | nil => exact absurd rfl hc
      | cons a as => exact ⟨_, _, rfl⟩
    have hcontains : (joinColon (root.name :: comps)).contains ':' = true := by
      rw [hcs, joinColon_cons_cons]
      exact contains_colon_append _ _
    simp only [hcontains, Bool.not_true]
    rw [if_neg (by simpa using hlen)]
    simp only [Bool.false_eq_true, if_false, take_append_length, fileManager_FSMakeFSSpec, hmk]

/-- C2 (amended).  Let the catalog be consistent: every entry is the one found
under its own key, every directory the one found under its own id, the entries
held by `fsRtParID` are exactly the directories with id `fsRtDirID`, no entry
has the id `fsRtParID`, and names are non-empty and contain no colon.  Let an
entry (file or directory) be reached from the root directory of its volume,
that root being the one found under its volume name, with no NUL in the names
on the way.  If the entry is not an alias file and its full pathname has at
most 255 bytes (254 for a bare volume name, to which a colon is appended), then
`convFSSpecToPath` with `includeFile` returns the full pathname, and resolving
that string succeeds and returns the volume, parent id and name of the
entry. -/
theorem convFSSpecToPath_fnameToFSSpec_roundtrip (faults : Faults) (cat : Catalog)
    (root e : CatEntry) (comps : List (List Char)) (spec0 : FSSpec) (fuel : Nat)
    (hcons : Consistent cat) (hreach : Reachable cat root e comps)
    (hvol : findVolume cat root.name = some root)
    (hnul : ∀ c ∈ root.name :: comps, Char.ofNat 0 ∉ c)
    (hna : e.aliasTarget = none)
    (hlen : (joinColon (root.name :: comps)).length + (if comps = [] then 1 else 0) ≤ 255)
    (hfuel : comps.length < fuel) :
    convFSSpecToPath (fileManager faults) fuel e.spec true cat =
      some (some ⟨0, joinColon (root.name :: comps)⟩, cat) ∧
    fnameToFSSpec (fileManager faults) (joinColon (root.name :: comps)) spec0 cat =
      (noErr, e.spec, cat) := by
  refine ⟨convFSSpecToPath_reachable faults hcons hreach hnul fuel hfuel, ?_⟩
  unfold fnameToFSSpec
  rw [fnameToFSSpecNoAlias_reachable faults hcons hreach hvol spec0 hlen]
  simp only [fileManager_ResolveAlias, catResolveAlias_not_alias hcons hreach.mem hna]
  rw [if_neg (by decide)]
  simp

theorem reachable_yearDir : Reachable macintoshHD hdRoot yearDir ["Archive".toList, "2020".toList] :=
  Reachable.child archiveDir yearDir ["Archive".toList]
    (Reachable.child hdRoot archiveDir [] (Reachable.root (by decide) (by decide))
      (by decide) (by decide) (by decide) (by decide))
    (by decide) (by decide) (by decide) (by decide)

theorem reachable_workDir : Reachable macintoshHD hdRoot workDir ["Work".toList] :=
  Reachable.child hdRoot workDir [] (Reachable.root (by decide) (by decide))
    (by decide) (by decide) (by decide) (by decide)

/-- Witness of C2 (amended): the file `report.txt` of `macintoshHD` is printed as
`Macintosh HD:Archive:2020:report.txt`, and that string resolves to it. -/
theorem convFSSpecToPath_fnameToFSSpec_roundtrip_witness :
    convFSSpecToPath (fileManager noFaults) 4 reportSpec true macintoshHD =
      some (some ⟨0, "Macintosh HD:Archive:2020:report.txt".toList⟩, macintoshHD) ∧
    fnameToFSSpec (fileManager noFaults) "Macintosh HD:Archive:2020:report.txt".toList default
      macintoshHD = (noErr, reportSpec, macintoshHD) :=
  convFSSpecToPath_fnameToFSSpec_roundtrip noFaults macintoshHD hdRoot reportFile
    ["Archive".toList, "2020".toList, "report.txt".toList] default 4 (by decide)
    (Reachable.child yearDir reportFile ["Archive".toList, "2020".toList] reachable_yearDir
      (by decide) (by decide) (by decide) (by decide))
    (by decide) (by decide) (by decide) (by decide) (by decide)

theorem reachable_innermost :
    Reachable deepHD deepRoot (deepDir 22 23) (List.replicate 8 longName) :=
  (Reachable.child (deepDir 21 22) (deepDir 22 23) (List.replicate 7 longName)
    (Reachable.child (deepDir 20 21) (deepDir 21 22) (List.replicate 6 longName)
    (Reachable.child (deepDir 19 20) (deepDir 20 21) (List.replicate 5 longName)
    (Reachable.child (deepDir 18 19) (deepDir 19 20) (List.replicate 4 longName)
    (Reachable.child (deepDir 17 18) (deepDir 18 19) (List.replicate 3 longName)
    (Reachable.child (deepDir 16 17) (deepDir 17 18) (List.replicate 2 longName)
    (Reachable.child (deepDir 2 16) (deepDir 16 17) (List.replicate 1 longName)
    (Reachable.child deepRoot (deepDir 2 16) (List.replicate 0 longName)
    (Reachable.root (by decide) (by decide))
    (by decide) (by decide) (by decide) (by decide))
    (by decide) (by decide) (by decide) (by decide))
    (by decide) (by decide) (by decide) (by decide))
    (by decide) (by decide) (by decide) (by decide))
    (by decide) (by decide) (by decide) (by decide))
    (by decide) (by decide) (by decide) (by decide))
    (by decide) (by decide) (by decide) (by decide))
    (by decide) (by decide) (by decide) (by decide))

set_option maxRecDepth 100000

/-- C2 (counterexample).  Four reachable locations of consistent catalogs whose
printed pathname does not resolve back to them.  In `macintoshHD` the alias
file `Work:Shortcut` is printed as `Macintosh HD:Work:Shortcut`, and that
string resolves to the location of `report.txt`, the target of the alias.  In
`deepHD` the innermost folder is printed as a pathname of 258 bytes, and
resolving that string fails with `bdNamErr`.  In `twoFloppies` two volumes are
named `Untitled`; the file `b.txt` of the second is printed as
`Untitled:b.txt`, and resolving that string looks on the first volume and
fails with `fnfErr`.  In `nulHD` the file whose name is `a`, NUL, `b` is
printed as `HD:a`, and resolving that string fails with `fnfErr`. -/
theorem roundtrip_counterexamples :
    WellFormed macintoshHD ∧
    Reachable macintoshHD hdRoot shortcutAlias ["Work".toList, "Shortcut".toList] ∧
    convFSSpecToPath (fileManager noFaults) 3 shortcutAlias.spec true macintoshHD =
      some (some ⟨0, "Macintosh HD:Work:Shortcut".toList⟩, macintoshHD) ∧
    fnameToFSSpec (fileManager noFaults) "Macintosh HD:Work:Shortcut".toList default
      macintoshHD = (noErr, reportSpec, macintoshHD) ∧
    reportSpec ≠ shortcutAlias.spec ∧
    WellFormed deepHD ∧
    Reachable deepHD deepRoot (deepDir 22 23) (List.replicate 8 longName) ∧
    convFSSpecToPath (fileManager noFaults) 9 (deepDir 22 23).spec true deepHD =
      some (some ⟨0, joinColon ("HD".toList :: List.replicate 8 longName)⟩, deepHD) ∧
    (joinColon ("HD".toList :: List.replicate 8 longName)).length = 258 ∧
    (fnameToFSSpec (fileManager noFaults) (joinColon ("HD".toList :: List.replicate 8 longName))
      default deepHD).1 = bdNamErr ∧
    Consistent twoFloppies ∧
    (∀ e ∈ twoFloppies, Char.ofNat 0 ∉ e.name) ∧
    Reachable twoFloppies secondFloppy secondFloppyFile ["b.txt".toList] ∧
    secondFloppyFile.aliasTarget = none ∧
    convFSSpecToPath (fileManager noFaults) 2 secondFloppyFile.spec true twoFloppies =
      some (some ⟨0, "Untitled:b.txt".toList⟩, twoFloppies) ∧
    (fnameToFSSpec (fileManager noFaults) "Untitled:b.txt".toList default twoFloppies).1 =
      fnfErr ∧
    Consistent nulHD ∧
    (∀ e ∈ nulHD, e.parID = fsRtParID → findVolume nulHD e.name = some e) ∧
    Reachable nulHD nulRoot nulFile [['a', Char.ofNat 0, 'b']] ∧
    nulFile.aliasTarget = none ∧
    convFSSpecToPath (fileManager noFaults) 2 nulFile.spec true nulHD =
      some (some ⟨0, "HD:a".toList⟩, nulHD) ∧
    (fnameToFSSpec (fileManager noFaults) "HD:a".toList default nulHD).1 = fnfErr := by
  refine ⟨by decide, ?_, by decide, by decide, by decide, by decide, reachable_innermost,
    by decide, by decide, by decide, by decide, by decide, ?_, by decide, by decide, by decide,
    by decide, by decide, ?_, by decide, by decide, by decide⟩
  · exact Reachable.child workDir shortcutAlias ["Work".toList] reachable_workDir
      (by decide) (by decide) (by decide) (by decide)
  · exact Reachable.child secondFloppy secondFloppyFile []
      (Reachable.root (by decide) (by decide)) (by decide) (by decide) (by decide) (by decide)
  · exact Reachable.child nulRoot nulFile []
      (Reachable.root (by decide) (by decide)) (by decide) (by decide) (by decide) (by decide)

/-! ## The safety fallback of the alias walk -/

/-- The alias walk ends with `noErr` when no step fails, and with the outcome of
one plain lookup of the whole path, made where the first failing step left the
location and the outside world, when a step fails. -/
theorem aliasWalk_eq {σ : Type} (tb : Toolbox σ) (fname : List Char) :
    ∀ (comps : List (List Char)) (spec : FSSpec) (st : σ),
      (firstWalkFailure tb comps spec st = none → (aliasWalk tb fname comps spec st).1 = noErr) ∧
      (∀ specF stF, firstWalkFailure tb comps spec st = some (specF, stF) →
        aliasWalk tb fname comps spec st = fnameToFSSpecNoAlias tb fname specF stF) := by
  intro comps
  induction comps with
  | nil =>
    intro spec st
    simp [firstWalkFailure, aliasWalk]
  | cons comp rest ih =>
    intro spec st
    rcases hpb : tb.PBGetCatInfoSync st
      { CInfoPBRec.zeroed spec.name with
        ioVRefNum := spec.vRefNum, ioDrDirID := spec.parID, ioFDirIndex := 0 } with ⟨e1, pb, st1⟩
    by_cases hdir : pb.ioFlAttrib &&& kioFlAttribDirMask ≠ 0
    · rcases hsp : tb.FSMakeFSSpec st1 spec.vRefNum pb.ioDrDirID comp with ⟨e2, sp, st2⟩
      rcases hal : tb.ResolveAliasFileWithMountFlags st2 sp with ⟨e3, sp3, st3⟩
      simp only [firstWalkFailure, aliasWalk, hpb, if_pos hdir, hsp, hal]
      by_cases h1 : e1 ≠ noErr
      · simp [h1]
      · by_cases h2 : e2 ≠ noErr
        · simp [h1, h2]
        · by_cases h3 : e3 ≠ noErr
          · simp [h1, h2, h3]
          · simp only [if_neg h1, if_neg h2, if_neg h3]
            exact ih sp3 st3
    · rcases hsp : tb.FSMakeFSSpec st1 spec.vRefNum spec.parID comp with ⟨e2, sp, st2⟩
      rcases hal : tb.ResolveAliasFileWithMountFlags st2 sp with ⟨e3, sp3, st3⟩
      simp only [firstWalkFailure, aliasWalk, hpb, if_neg hdir, hsp, hal]
      by_cases h1 : e1 ≠ noErr
      · simp [h1]
      · by_cases h2 : e2 ≠ noErr
        · simp [h1, h2]
        · by_cases h3 : e3 ≠ noErr
          · simp [h1, h2, h3]
          · simp only [if_neg h1, if_neg h2, if_neg h3]
            exact ih sp3 st3

/-- With `FSMakeFSSpec` result codes that do not depend on the state of the
outside world, a plain lookup made later returns the result code of the plain
lookup made first. -/
theorem fnameToFSSpecNoAlias_err_deterministic {σ : Type} (tb : Toolbox σ) (fname : List Char)
    (spec spec' : FSSpec) (st st' : σ)
    (hdet : ∀ (s s' : σ) (v d : Int) (n : List Char),
      (tb.FSMakeFSSpec s v d n).1 = (tb.FSMakeFSSpec s' v d n).1) :
    (fnameToFSSpecNoAlias tb fname spec st).1 = (fnameToFSSpecNoAlias tb fname spec' st').1 := by
  by_cases hl : fname.length + (if (!fname.contains ':') = true then 1 else 0) > 255
  · simp only [fnameToFSSpecNoAlias, if_pos hl]
  · simp only [fnameToFSSpecNoAlias, if_neg hl]
    exact hdet _ _ _ _ _

theorem fnameToFSSpecNoAlias_state {σ : Type} (tb : Toolbox σ) (fname : List Char)
    (spec : FSSpec) (st : σ)
    (hq : ∀ (s : σ) (v d : Int) (n : List Char), (tb.FSMakeFSSpec s v d n).2.2 = s) :
    (fnameToFSSpecNoAlias tb fname spec st).2.2 = st := by
  by_cases hl : fname.length + (if (!fname.contains ':') = true then 1 else 0) > 255
  · simp only [fnameToFSSpecNoAlias, if_pos hl]
  · simp only [fnameToFSSpecNoAlias, if_neg hl]
    exact hq _ _ _ _

/-- When the three queries of the walk leave the outside world as it is, the
first failing step is reached in the state the walk began in. -/
theorem firstWalkFailure_state {σ : Type} (tb : Toolbox σ)
    (hq1 : ∀ (s : σ) (v d : Int) (n : List Char), (tb.FSMakeFSSpec s v d n).2.2 = s)
    (hq2 : ∀ (s : σ) (pb : CInfoPBRec), (tb.PBGetCatInfoSync s pb).2.2 = s)
    (hq3 : ∀ (s : σ) (sp : FSSpec), (tb.ResolveAliasFileWithMountFlags s sp).2.2 = s) :
    ∀ (comps : List (List Char)) (spec : FSSpec) (st : σ) (specF : FSSpec) (stF : σ),
      firstWalkFailure tb comps spec st = some (specF, stF) → stF = st := by
  intro comps
  induction comps with
  | nil =>
    intro spec st specF stF h
    simp [firstWalkFailure] at h
  | cons comp rest ih =>
    intro spec st specF stF h
    have h2 := hq2 st
      { CInfoPBRec.zeroed spec.name with
        ioVRefNum := spec.vRefNum, ioDrDirID := spec.parID, ioFDirIndex := 0 }
    rcases hpb : tb.PBGetCatInfoSync st
      { CInfoPBRec.zeroed spec.name with
        ioVRefNum := spec.vRefNum, ioDrDirID := spec.parID, ioFDirIndex := 0 } with ⟨e1, pb, st1⟩
    rw [hpb] at h2
    simp only at h2
    subst h2
    have h1 := hq1 st1 spec.vRefNum
      (if pb.ioFlAttrib &&& kioFlAttribDirMask ≠ 0 then pb.ioDrDirID else spec.parID) comp
    rcases hsp : tb.FSMakeFSSpec st1 spec.vRefNum
      (if pb.ioFlAttrib &&& kioFlAttribDirMask ≠ 0 then pb.ioDrDirID else spec.parID) comp
      with ⟨e2, sp, st2⟩
    rw [hsp] at h1
    simp only at h1
    subst h1
    have h3 := hq3 st2 sp
    rcases hal : tb.ResolveAliasFileWithMountFlags st2 sp with ⟨e3, sp3, st3⟩
    rw [hal] at h3
    simp only at h3
    subst h3
    simp only [firstWalkFailure, hpb, hsp, hal] at h
    by_cases c1 : e1 ≠ noErr
    · simp only [if_pos c1, Option.some.injEq, Prod.mk.injEq] at h
      exact h.2.symm
    · by_cases c2 : e2 ≠ noErr
      · simp only [if_neg c1, if_pos c2, Option.some.injEq, Prod.mk.injEq] at h
        exact h.2.symm
      · by_cases c3 : e3 ≠ noErr
        · simp only [if_neg c1, if_neg c2, if_pos c3, Option.some.injEq, Prod.mk.injEq] at h
          exact h.2.symm
        · simp only [if_neg c1, if_neg c2, if_neg c3] at h
          exact ih sp3 st3 specF stF h

/-- C11.  Let a path enter the alias walk: its direct lookup answers `dirNFErr`,
it has two separators and the lookup of its first segment succeeds.  If some
step of the walk fails (the catalog fetch of the current location, the
`FSMakeFSSpec` of the next component or its alias resolution), the outcome of
the resolver, result code, location and state, is the outcome of one plain
lookup of the original whole path, made where the failing step left off.
With a deterministic catalog the result code is the original `dirNFErr`: both
when the result codes of `FSMakeFSSpec` do not depend on the state of the
outside world, and when the three queries of the walk leave that state as it
is, in which case the whole outcome is the outcome of the original lookup. -/
theorem fnameToFSSpec_safety_fallback {σ : Type} (tb : Toolbox σ)
    (fname vol afterFirst dir afterSecond : List Char) (spec spec1 spec2 specF : FSSpec)
    (st st1 st2 stF : σ)
    (hb1 : breakColon fname = some (vol, afterFirst))
    (hb2 : breakColon afterFirst = some (dir, afterSecond))
    (hd : fnameToFSSpecNoAlias tb fname spec st = (dirNFErr, spec1, st1))
    (hs : fnameToFSSpecNoAlias tb (vol ++ ':' :: dir) spec1 st1 = (noErr, spec2, st2))
    (hfail : firstWalkFailure tb (splitColon afterSecond) spec2 st2 = some (specF, stF)) :
    fnameToFSSpec tb fname spec st = fnameToFSSpecNoAlias tb fname specF stF ∧
    ((∀ (s s' : σ) (v d : Int) (n : List Char),
        (tb.FSMakeFSSpec s v d n).1 = (tb.FSMakeFSSpec s' v d n).1) →
      (fnameToFSSpec tb fname spec st).1 = dirNFErr) ∧
    ((∀ (s : σ) (v d : Int) (n : List Char), (tb.FSMakeFSSpec s v d n).2.2 = s) →
      (∀ (s : σ) (pb : CInfoPBRec), (tb.PBGetCatInfoSync s pb).2.2 = s) →
      (∀ (s : σ) (sp : FSSpec), (tb.ResolveAliasFileWithMountFlags s sp).2.2 = s) →
      fnameToFSSpec tb fname spec st = (dirNFErr, spec1, st)) := by
  have hwalk : fnameToFSSpec tb fname spec st = fnameToFSSpecNoAlias tb fname specF stF := by
    unfold fnameToFSSpec
    simp only [hd, hb1, hb2, hs, if_true, ne_eq, not_true_eq_false, if_false]
    exact (aliasWalk_eq tb fname (splitColon afterSecond) spec2 st2).2 specF stF hfail
  refine ⟨hwalk, ?_, ?_⟩
  · intro hdet
    rw [hwalk, fnameToFSSpecNoAlias_err_deterministic tb fname specF spec stF st hdet, hd]
  · intro hq1 hq2 hq3
    have e1 : st1 = st := by
      have := fnameToFSSpecNoAlias_state tb fname spec st hq1
      rwa [hd] at this
    have e2 : st2 = st1 := by
      have := fnameToFSSpecNoAlias_state tb (vol ++ ':' :: dir) spec1 st1 hq1
      rwa [hs] at this
    have e3 : stF = st2 := firstWalkFailure_state tb hq1 hq2 hq3 _ _ _ _ _ hfail
    rw [hwalk, e3, e2, e1]
    by_cases hl : fname.length + (if (!fname.contains ':') = true then 1 else 0) > 255
    · simp only [fnameToFSSpecNoAlias, if_pos hl, Prod.mk.injEq] at hd
      exact absurd hd.1 (by decide)
    · simp only [fnameToFSSpecNoAlias, if_neg hl] at hd ⊢
      rw [hd, e1]

/-- Witness of C11: in `macintoshHD` the path `Macintosh HD:Docs:report.txt`
enters the alias walk, the `FSMakeFSSpec` of the component `report.txt` fails,
and the resolver returns the outcome of the plain lookup of the whole path,
`dirNFErr`. -/
theorem fnameToFSSpec_safety_fallback_witness :
    firstWalkFailure (fileManager noFaults) (splitColon "report.txt".toList)
      ⟨-1, 2, "Docs".toList⟩ macintoshHD = some (⟨-1, 2, "report.txt".toList⟩, macintoshHD) ∧
    fnameToFSSpec (fileManager noFaults) "Macintosh HD:Docs:report.txt".toList default
      macintoshHD =
        fnameToFSSpecNoAlias (fileManager noFaults) "Macintosh HD:Docs:report.txt".toList
          ⟨-1, 2, "report.txt".toList⟩ macintoshHD ∧
    fnameToFSSpec (fileManager noFaults) "Macintosh HD:Docs:report.txt".toList default
      macintoshHD = (dirNFErr, ⟨-1, 2, "Docs".toList⟩, macintoshHD) :=
  have h := fnameToFSSpec_safety_fallback (fileManager noFaults)
    "Macintosh HD:Docs:report.txt".toList "Macintosh HD".toList "Docs:report.txt".toList
    "Docs".toList "report.txt".toList default ⟨-1, 2, "Docs".toList⟩ ⟨-1, 2, "Docs".toList⟩
    ⟨-1, 2, "report.txt".toList⟩ macintoshHD macintoshHD macintoshHD macintoshHD
    (by decide) (by decide) (by decide) (by decide) (by decide)
  ⟨by decide, h.1, h.2.2 (fun _ _ _ _ => rfl) (fun _ _ => rfl) (fun _ _ => rfl)⟩

/-! ## Properties of closing -/

theorem traced_GetVRefNum {σ : Type} (tb : Toolbox σ) (s : σ × List Call) (ref : Int) :
    (traced tb).GetVRefNum s ref =
      ((tb.GetVRefNum s.1 ref).1, (tb.GetVRefNum s.1 ref).2.1,
        ((tb.GetVRefNum s.1 ref).2.2, s.2 ++ [Call.GetVRefNum ref])) := rfl

theorem traced_PBHGetVInfoSync {σ : Type} (tb : Toolbox σ) (s : σ × List Call) (v : Int) :
    (traced tb).PBHGetVInfoSync s v =
      ((tb.PBHGetVInfoSync s.1 v).1, (tb.PBHGetVInfoSync s.1 v).2.1,
        ((tb.PBHGetVInfoSync s.1 v).2.2, s.2 ++ [Call.PBHGetVInfoSync v])) := rfl

theorem traced_FSClose {σ : Type} (tb : Toolbox σ) (s : σ × List Call) (ref : Int) :
    (traced tb).FSClose s ref =
      ((tb.FSClose s.1 ref).1, ((tb.FSClose s.1 ref).2, s.2 ++ [Call.FSClose ref])) := rfl

theorem traced_free {σ : Type} (tb : Toolbox σ) (s : σ × List Call) (addr : Nat) :
    (traced tb).free s addr = (tb.free s.1 addr, s.2 ++ [Call.free addr]) := rfl

theorem traced_FlushVol {σ : Type} (tb : Toolbox σ) (s : σ × List Call) (n : List Char)
    (v : Int) :
    (traced tb).FlushVol s n v =
      ((tb.FlushVol s.1 n v).1, ((tb.FlushVol s.1 n v).2, s.2 ++ [Call.FlushVol n v])) := rfl

/-- The native calls of `__PHYSFS_platformClose` and its result, for every
behaviour of the native calls: the function returns 1 after releasing the
handle when the three steps succeed, and returns 0 without releasing the
handle as soon as one of them fails. -/
theorem platformClose_calls {σ : Type} (tb : Toolbox σ) (handle : FileHandle) (st : σ) :
    ((__PHYSFS_platformClose (traced tb) handle (st, [])).1 = 1 ∧
      ((__PHYSFS_platformClose (traced tb) handle (st, [])).2.2.filter
        (Call.isFreeOf handle.addr)).length = 1 ∧
      (tb.GetVRefNum st handle.ref).1 = noErr ∧
      (tb.PBHGetVInfoSync (tb.GetVRefNum st handle.ref).2.2
        (tb.GetVRefNum st handle.ref).2.1).1 = noErr ∧
      (tb.FSClose (tb.PBHGetVInfoSync (tb.GetVRefNum st handle.ref).2.2
        (tb.GetVRefNum st handle.ref).2.1).2.2 handle.ref).1 = noErr) ∨
    ((__PHYSFS_platformClose (traced tb) handle (st, [])).1 = 0 ∧
      ((__PHYSFS_platformClose (traced tb) handle (st, [])).2.2.filter
        (Call.isFreeOf handle.addr)).length = 0 ∧
      ((tb.GetVRefNum st handle.ref).1 ≠ noErr ∨
       (tb.PBHGetVInfoSync (tb.GetVRefNum st handle.ref).2.2
        (tb.GetVRefNum st handle.ref).2.1).1 ≠ noErr ∨
       (tb.FSClose (tb.PBHGetVInfoSync (tb.GetVRefNum st handle.ref).2.2
        (tb.GetVRefNum st handle.ref).2.1).2.2 handle.ref).1 ≠ noErr)) := by
  rcases hg : tb.GetVRefNum st handle.ref with ⟨e1, v, st1⟩
  rcases hv : tb.PBHGetVInfoSync st1 v with ⟨e2, name, st2⟩
  rcases hc : tb.FSClose st2 handle.ref with ⟨e3, st3⟩
  simp only [__PHYSFS_platformClose, traced_GetVRefNum, traced_PBHGetVInfoSync, traced_FSClose,
    traced_free, traced_FlushVol, traced_setError, hg, hv, hc]
  by_cases h1 : e1 ≠ noErr
  · right
    simp [h1, Call.isFreeOf]
  · by_cases h2 : e2 ≠ noErr
    · right
      simp [h1, h2, Call.isFreeOf]
    · by_cases h3 : e3 ≠ noErr
      · right
        simp [h1, h2, h3, Call.isFreeOf]
      · left
        simp only [ne_eq, not_not] at h1 h2 h3
        simp [h1, h2, h3, Call.isFreeOf]

/-- The result of `__PHYSFS_platformClose` is 0 when the volume lookup, the
volume information lookup or the closing of the descriptor fails. -/
theorem platformClose_fails {σ : Type} (tb : Toolbox σ) (handle : FileHandle) (st : σ)
    (h : (tb.GetVRefNum st handle.ref).1 ≠ noErr ∨
       (tb.PBHGetVInfoSync (tb.GetVRefNum st handle.ref).2.2
        (tb.GetVRefNum st handle.ref).2.1).1 ≠ noErr ∨
       (tb.FSClose (tb.PBHGetVInfoSync (tb.GetVRefNum st handle.ref).2.2
        (tb.GetVRefNum st handle.ref).2.1).2.2 handle.ref).1 ≠ noErr) :
    (__PHYSFS_platformClose tb handle st).1 = 0 := by
  rcases hg : tb.GetVRefNum st handle.ref with ⟨e1, v, st1⟩
  rcases hv : tb.PBHGetVInfoSync st1 v with ⟨e2, name, st2⟩
  rcases hc : tb.FSClose st2 handle.ref with ⟨e3, st3⟩
  simp only [hg, hv, hc] at h
  simp only [__PHYSFS_platformClose, hg, hv, hc]
  by_cases h1 : e1 ≠ noErr
  · simp [h1]
  · by_cases h2 : e2 ≠ noErr
    · simp [h1, h2]
    · by_cases h3 : e3 ≠ noErr
      · simp [h1, h2, h3]
      · rcases h with h | h | h <;> contradiction

theorem traced_FSMakeFSSpec {σ : Type} (tb : Toolbox σ) (s : σ × List Call) (v d : Int)
    (n : List Char) :
    (traced tb).FSMakeFSSpec s v d n =
      ((tb.FSMakeFSSpec s.1 v d n).1, (tb.FSMakeFSSpec s.1 v d n).2.1,
        ((tb.FSMakeFSSpec s.1 v d n).2.2, s.2 ++ [Call.FSMakeFSSpec v d n])) := rfl

/-- The plain lookup, for every toolbox: a name too long is refused before any
native call, any other name is handed to `FSMakeFSSpec` whole, with a colon
appended when it has none. -/
theorem fnameToFSSpecNoAlias_eq {σ : Type} (tb : Toolbox σ) (fname : List Char)
    (spec : FSSpec) (st : σ) :
    fnameToFSSpecNoAlias tb fname spec st =
      (if fname.length + (if ':' ∈ fname then 0 else 1) > 255 then (bdNamErr, spec, st)
       else tb.FSMakeFSSpec st 0 0 (fname ++ if ':' ∈ fname then [] else [':'])) := by
  unfold fnameToFSSpecNoAlias
  by_cases hc : ':' ∈ fname
  · have hcontains : fname.contains ':' = true := by simpa using hc
    simp only [hcontains, Bool.not_true, Bool.false_eq_true, if_false, if_pos hc,
      take_append_length, List.append_nil]
  · have hcontains : fname.contains ':' = false := contains_colon_false fname hc
    simp only [hcontains, Bool.not_false, if_true, if_neg hc, take_set_colon]

/-- C13.  Let `n` be the length of the path, plus one when it contains no
`':'`.  If `n` exceeds 255, `fnameToFSSpecNoAlias` returns `bdNamErr`, leaves
the location and the state as they are and makes no native call.  Otherwise
its outcome is that of the one call `FSMakeFSSpec(0, 0, name)` it makes, where
`name` is the whole path followed by a single `':'` exactly when the path
contains none; the length byte of `name` is `n`. -/
theorem fnameToFSSpecNoAlias_bounded_name {σ : Type} (tb : Toolbox σ) (fname : List Char)
    (spec : FSSpec) (st : σ) :
    fnameToFSSpecNoAlias tb fname spec st =
      (if fname.length + (if ':' ∈ fname then 0 else 1) > 255 then (bdNamErr, spec, st)
       else tb.FSMakeFSSpec st 0 0 (fname ++ if ':' ∈ fname then [] else [':'])) ∧
    (fnameToFSSpecNoAlias (traced tb) fname spec (st, [])).2.2.2 =
      (if fname.length + (if ':' ∈ fname then 0 else 1) > 255 then []
       else [Call.FSMakeFSSpec 0 0 (fname ++ if ':' ∈ fname then [] else [':'])]) ∧
    (fname ++ if ':' ∈ fname then [] else [':']).length =
      fname.length + (if ':' ∈ fname then 0 else 1) := by
  refine ⟨fnameToFSSpecNoAlias_eq tb fname spec st, ?_, ?_⟩
  · rw [fnameToFSSpecNoAlias_eq (traced tb) fname spec (st, [])]
    by_cases hl : fname.length + (if ':' ∈ fname then 0 else 1) > 255
    · simp only [if_pos hl]
    · simp only [if_neg hl, traced_FSMakeFSSpec, List.nil_append]
  · split <;> simp

/-! ## Termination of the directory lister -/

/-- For a child count below 65535 and every behaviour of the native calls, the
loop of `__PHYSFS_platformEnumerateFiles` entered at `i` ends within
`max + 1 - i` iterations and appends at most that many names. -/
theorem enumerateLoop_terminates {σ : Type} (tb : Toolbox σ) (omitSymLinks : Bool)
    (vRefNum dirID : Int) (max : Nat) (hmax : max < 65535) :
    ∀ (k i fuel : Nat) (retval : List (List Char)) (st : σ),
      i + k = max + 1 → k < fuel →
      ∃ r, enumerateLoop tb omitSymLinks vRefNum dirID max fuel i retval st = some r ∧
        r.1.length ≤ retval.length + k := by
  intro k
  induction k with
  | zero =>
    intro i fuel retval st hik hfuel
    obtain ⟨f, rfl⟩ : ∃ f, fuel = f + 1 := ⟨fuel - 1, by omega⟩
    rw [enumerateLoop, if_neg (by omega)]
    exact ⟨_, rfl, by simp⟩
  | succ k ih =>
    intro i fuel retval st hik hfuel
    obtain ⟨f, rfl⟩ : ∃ f, fuel = f + 1 := ⟨fuel - 1, by omega⟩
    have hrec : ∀ (rv : List (List Char)) (s : σ), rv.length ≤ retval.length + 1 →
        ∃ r, enumerateLoop tb omitSymLinks vRefNum dirID max f (toUInt16 (i + 1)) rv s = some r ∧
          r.1.length ≤ retval.length + (k + 1) := by
      intro rv s hrv
      rw [toUInt16_succ i max (by omega) hmax]
      obtain ⟨r, hr, hlen⟩ := ih (i + 1) f rv s (by omega) (by omega)
      exact ⟨r, hr, by omega⟩
    rcases hpb : tb.PBGetCatInfoSync st
      { CInfoPBRec.zeroed [] with
        ioVRefNum := vRefNum, ioDrDirID := dirID, ioFDirIndex := toSInt16 i } with ⟨e1, pb, st1⟩
    rcases hsp : tb.FSMakeFSSpec st1 vRefNum dirID pb.ioName with ⟨e2, sp, st2⟩
    rcases hal : tb.IsAliasFile st2 sp with ⟨e3, a, st3⟩
    rcases hm1 : tb.malloc st3 sizeofLinkedStringList with ⟨o1, st4⟩
    rw [enumerateLoop, if_pos (by omega)]
    simp only [hpb]
    by_cases h1 : e1 ≠ noErr
    · rw [if_pos h1]
      exact hrec retval st1 (by omega)
    · simp only [if_neg h1, hsp]
      by_cases h2 : e2 ≠ noErr
      · rw [if_pos h2]
        exact hrec retval st2 (by omega)
      · simp only [if_neg h2, hal]
        by_cases h3 : e3 ≠ noErr
        · rw [if_pos h3]
          exact hrec retval st3 (by omega)
        · rw [if_neg h3]
          by_cases h4 : (a && omitSymLinks) = true
          · rw [if_pos h4]
            exact hrec retval st3 (by omega)
          · rw [if_neg h4]
            simp only [hm1]
            cases o1 with
            | none => exact ⟨_, rfl, by simp⟩
            | some l =>
              rcases hm2 : tb.malloc st4 (pb.ioName.length + 1) with ⟨o2, st5⟩
              simp only [hm2]
              cases o2 with
              | none => exact ⟨_, rfl, by simp⟩
              | some p => exact hrec _ st5 (by simp)

/-- For a reported child count below 65535 and every behaviour of the native
calls, `__PHYSFS_platformEnumerateFiles` on a directory returns, and the list
it returns has at most as many names as the reported count. -/
theorem platformEnumerateFiles_terminates {σ : Type} (tb : Toolbox σ) (dirname : List Char)
    (omitSymLinks : Bool) (st : σ) (spec : FSSpec) (st1 st2 : σ) (pb : CInfoPBRec) (fuel : Nat)
    (hres : fnameToFSSpec tb dirname default st = (noErr, spec, st1))
    (hcat : tb.PBGetCatInfoSync st1
      { CInfoPBRec.zeroed spec.name with
        ioVRefNum := spec.vRefNum, ioDrDirID := spec.parID, ioFDirIndex := 0 } = (noErr, pb, st2))
    (hdir : pb.ioFlAttrib &&& kioFlAttribDirMask ≠ 0)
    (hN : toUInt16 pb.ioDrNmFls < 65535) (hfuel : toUInt16 pb.ioDrNmFls < fuel) :
    ∃ r, __PHYSFS_platformEnumerateFiles tb fuel dirname omitSymLinks st = some r ∧
      r.1.length ≤ toUInt16 pb.ioDrNmFls := by
  rw [platformEnumerateFiles_of_directory tb fuel dirname omitSymLinks st spec st1 st2 pb
    hres hcat hdir]
  obtain ⟨r, hr, hlen⟩ := enumerateLoop_terminates tb omitSymLinks spec.vRefNum pb.ioDrDirID
    (toUInt16 pb.ioDrNmFls) hN (toUInt16 pb.ioDrNmFls) 1 fuel [] st2 (by omega) hfuel
  exact ⟨r, hr, by simpa using hlen⟩

/-- C14 (evaluation at the failing input).  With `crowdedToolbox` the name `HD`
resolves to a directory whose catalog block reports 65535 children.  The
16-bit counter `i` can never exceed 65535, so the loop test never fails: for
every bound on the number of loop tests, `__PHYSFS_platformEnumerateFiles`
has not returned. -/
theorem platformEnumerateFiles_never_returns :
    (crowdedToolbox.PBGetCatInfoSync ()
      { CInfoPBRec.zeroed "HD:".toList with ioVRefNum := 0, ioDrDirID := 0, ioFDirIndex := 0 }
      ).2.1.ioDrNmFls = 65535 ∧
    ∀ (fuel : Nat) (omitSymLinks : Bool),
      __PHYSFS_platformEnumerateFiles crowdedToolbox fuel "HD".toList omitSymLinks () = none := by
  refine ⟨by decide, ?_⟩
  intro fuel omitSymLinks
  rw [platformEnumerateFiles_of_directory crowdedToolbox fuel "HD".toList omitSymLinks ()
    ⟨0, 0, "HD:".toList⟩ () ()
    { CInfoPBRec.zeroed "HD:".toList with
      ioVRefNum := 0, ioDrDirID := fsRtDirID, ioFDirIndex := 0,
      ioFlAttrib := kioFlAttribDirMask, ioDrNmFls := 65535 }
    (by decide) (by decide) (by decide)]
  exact enumerateLoop_never_ends crowdedToolbox omitSymLinks _ _ (fun _ _ => ⟨0, rfl⟩) fuel 1 []
    () (by omega)

end MacClassic
